import Mathlib

/-!
Verification of the hslam/rum HTTP multiplexer and server layer.

Strings are embedded as `List Char` (`Str`).  The functions below are
shallow embeddings of the Go functions in `mux.go` and `rum.go`:
`replace`, `parseParams`, `matchParams`, `Handle`, `Group`, `Use`,
`Params`, `serveEntry`, `serveHTTP`, the `Entry` method selectors, and
`Rum.Close`.  Go maps are embedded as association lists in insertion
order (Go map iteration order is unspecified; the spec leaves dispatch
order across buckets unspecified as well).  Handlers and middleware are
identified by natural numbers; the observable behaviour of a dispatch is
the list of invocation events it produces.
-/

set_option autoImplicit false

namespace Rum

abbrev Str := List Char

/-- `strings.Contains(s, ab)` for a two-character pattern `ab`. -/
def containsPair (a b : Char) : Str → Bool
  | [] => false
  | [_] => false
  | x :: y :: rest => (x = a && y = b) || containsPair a b (y :: rest)

/-- One pass of `strings.ReplaceAll(s, "//", "/")` (left-to-right,
non-overlapping). -/
def replacePairAll : Str → Str
  | [] => []
  | [x] => [x]
  | x :: y :: rest =>
    if x = '/' && y = '/' then '/' :: replacePairAll rest
    else x :: replacePairAll (y :: rest)

/-- The loop of `Mux.replace`: repeat `ReplaceAll` while `"//"` occurs.
Each pass strictly shortens the string, so `s.length` passes suffice. -/
def replaceLoop : Nat → Str → Str
  | 0, s => s
  | n + 1, s =>
    if containsPair '/' '/' s then replaceLoop n (replacePairAll s) else s

/-- `Mux.replace`: collapse consecutive path separators. -/
def replace (s : Str) : Str := replaceLoop s.length s

/-- Specification-side normalization: every run of consecutive `'/'`
collapsed to a single `'/'` (the spec's description of `Mux.replace`). -/
def collapse : Str → Str
  | [] => []
  | [x] => [x]
  | x :: y :: rest =>
    if x = '/' && y = '/' then collapse (y :: rest)
    else x :: collapse (y :: rest)

/-- `strings.Split(s, sep)` for a one-character separator. -/
def splitSep (c : Char) : Str → List Str
  | [] => [[]]
  | x :: xs =>
    if x = c then [] :: splitSep c xs
    else
      match splitSep c xs with
      | h :: t => (x :: h) :: t
      | [] => [[x]]

/-- `strings.Join` / the inverse of `splitSep`. -/
def joinSep (c : Char) : List Str → Str
  | [] => []
  | [s] => s
  | s :: rest => s ++ c :: joinSep c rest

/-- `strings.Trim(s, ":")`: remove leading and trailing `':'`. -/
def trimColon (s : Str) : Str :=
  (((s.dropWhile (fun c => c = ':')).reverse.dropWhile (fun c => c = ':')).reverse)

/-! ## Method bitmask constants (the `iota` block of mux.go) -/

def mOPTIONS : Nat := 1
def mGET : Nat := 2
def mHEAD : Nat := 4
def mPOST : Nat := 8
def mPUT : Nat := 16
def mDELETE : Nat := 32
def mTRACE : Nat := 64
def mCONNECT : Nat := 128
def mPATCH : Nat := 256

/-- The `Entry` struct of mux.go.  Handlers are identified by `Nat`;
a Go `nil` handler is `none`.  The per-method handler fields `get`,
`post`, ... are embedded as `hGet`, `hPost`, ... -/
structure Entry where
  handler : Option Nat := none
  key : Str := []
  matchSeg : List Str := []
  params : List Str := []
  method : Nat := 0
  hGet : Option Nat := none
  hPost : Option Nat := none
  hPut : Option Nat := none
  hDelete : Option Nat := none
  hPatch : Option Nat := none
  hHead : Option Nat := none
  hOptions : Option Nat := none
  hTrace : Option Nat := none
  hConnect : Option Nat := none
deriving DecidableEq, Repr, Inhabited

/-- The `prefix` struct of mux.go: a literal prefix together with the
map from shape key to `Entry` (embedded as an association list in
insertion order). -/
structure Bucket where
  pre : Str
  entries : List (Str × Entry)
deriving DecidableEq, Repr, Inhabited

/-- The `Mux` struct of mux.go.  `buckets` embeds the `prefixes` map,
`groups` the nested group muxes, `groupPre` the `group` field, and
`middlewares`/`nf` the middleware slice and not-found handler. -/
inductive Mux : Type where
  | mk (buckets : List (Str × Bucket)) (middlewares : List Nat)
       (nf : Option Nat) (groupPre : Str) (groups : List (Str × Mux))

def Mux.buckets : Mux → List (Str × Bucket)
  | .mk b _ _ _ _ => b

def Mux.middlewares : Mux → List Nat
  | .mk _ mw _ _ _ => mw

def Mux.nf : Mux → Option Nat
  | .mk _ _ n _ _ => n

def Mux.groupPre : Mux → Str
  | .mk _ _ _ g _ => g

def Mux.groups : Mux → List (Str × Mux)
  | .mk _ _ _ _ gs => gs

/-- `NewMux()`. -/
def emptyMux : Mux := .mk [] [] none [] []

/-- `newGroup(group)`. -/
def newGroup (g : Str) : Mux := .mk [] [] none g []

/-- Lookup in a Go map embedded as an association list (first match). -/
def alookup {α : Type} (k : Str) : List (Str × α) → Option α
  | [] => none
  | (k2, v) :: rest => if k2 = k then some v else alookup k rest

/-- Go map assignment `m[k] = v`: replace the first binding of `k`, or
append a new binding. -/
def aset {α : Type} (k : Str) (v : α) : List (Str × α) → List (Str × α)
  | [] => [(k, v)]
  | (k2, w) :: rest =>
    if k2 = k then (k, v) :: rest else (k2, w) :: aset k v rest

/-! ## Registration: `parseParams` and `Handle` -/

/-- Registration and configuration errors (`panic` values in mux.go). -/
inductive MuxErr where
  | groupExisted
  | paramsKeyEmpty
deriving DecidableEq, Repr

/-- The result of `Mux.parseParams`. -/
structure Parsed where
  pre : Str
  key : Str
  matchSeg : List Str
  params : List Str
deriving DecidableEq, Repr

/-- The segment loop of `Mux.parseParams`: builds the shape key, the
segment template (`match`, parameter names at parameter positions and
`""` at literal positions) and the parameter-name list.  The flag is
`true` for the first segment (`i == 0`). -/
def buildSegs : List Str → Bool → Str × List Str × List Str
  | [], _ => ([], [], [])
  | seg :: rest, isFirst =>
    let r := buildSegs rest false
    if seg.contains ':' then
      let name := trimColon seg
      ((if isFirst then [':'] else ['/', ':']) ++ r.1, name :: r.2.1, name :: r.2.2)
    else
      (('/' :: seg) ++ r.1, [] :: r.2.1, r.2.2)

/-- `Mux.parseParams` (the `panic(ErrParamsKeyEmpty)` becomes an
`Except.error`). -/
def parseParams (pattern : Str) : Except MuxErr Parsed :=
  if pattern.contains ':' then
    let rest := pattern.dropWhile (fun c => c != ':')
    if rest.length = 1 || containsPair ':' '/' pattern then
      .error .paramsKeyEmpty
    else
      let r := buildSegs (splitSep '/' rest) true
      .ok ⟨pattern.takeWhile (fun c => c != ':'), r.1, r.2.1, r.2.2⟩
  else
    .ok ⟨pattern, [], [], []⟩

/-- The entry-field assignments shared by the three branches of
`Mux.Handle`: set `handler`, `key`, `match` and `params`, keep the
method bitmask and every per-method handler slot. -/
def reRegister (p : Parsed) (h : Nat) (e : Entry) : Entry :=
  { e with handler := some h, key := p.key, matchSeg := p.matchSeg,
           params := p.params }

def Mux.setBuckets : Mux → List (Str × Bucket) → Mux
  | .mk _ mw n g gs, b => .mk b mw n g gs

/-- `Mux.Handle`: normalize the pattern, parse `group + pattern`, and
store the entry under its (literal prefix, shape key) pair, updating an
existing entry in place.  Returns the new mux together with the entry's
location. -/
def handleOp (m : Mux) (pattern : Str) (h : Nat) :
    Except MuxErr (Mux × Str × Str) :=
  match parseParams (m.groupPre ++ replace pattern) with
  | .error err => .error err
  | .ok p =>
    match alookup p.pre m.buckets with
    | some b =>
      let base : Entry :=
        match alookup p.key b.entries with
        | some e => e
        | none => {}
      let b2 : Bucket := { b with entries := aset p.key (reRegister p h base) b.entries }
      .ok (m.setBuckets (aset p.pre b2 m.buckets), p.pre, p.key)
    | none =>
      let b2 : Bucket := ⟨p.pre, [(p.key, reRegister p h {})]⟩
      .ok (m.setBuckets (aset p.pre b2 m.buckets), p.pre, p.key)

/-! ## Matching and dispatch -/

/-- The inner loop of `Mux.matchParams`: rebuild a shape key from the
path remainder's segments (`form`) against an entry's segment template
(`match`), parameter positions contributing `":"` and literal positions
contributing `"/" + form[i]`.  The flag is `true` for `i == 0`. -/
def rebuildKey : List Str → List Str → Bool → Str
  | mseg :: mrest, f :: frest, isFirst =>
    (if mseg ≠ [] then (if isFirst then [':'] else ['/', ':'])
     else '/' :: f) ++ rebuildKey mrest frest false
  | _, _, _ => []

/-- The entry loop of `Mux.matchParams` over one bucket. -/
def scanEntries (r : Str) : List (Str × Entry) → Option Str
  | [] => none
  | (_, v) :: rest =>
    if r.count '/' + 1 = v.matchSeg.length then
      if rebuildKey v.matchSeg (splitSep '/' r) true = v.key then some v.key
      else scanEntries r rest
    else scanEntries r rest

/-- `Mux.matchParams`: find the first bucket whose literal prefix is a
prefix of the path and whose shape matches; returns the bucket prefix
and the matched shape key. -/
def matchParams (path : Str) : List (Str × Bucket) → Option (Str × Str)
  | [] => none
  | (_, b) :: rest =>
    if b.pre.isPrefixOf path then
      let r := path.drop b.pre.length
      if r = [] then some (b.pre, [])
      else
        match scanEntries r b.entries with
        | some key => some (b.pre, key)
        | none => matchParams path rest
    else matchParams path rest

/-- `Mux.getHandlerFunc`. -/
def getHandlerFunc (m : Mux) (path : Str) : Option Entry :=
  match matchParams path m.buckets with
  | some (pre, key) =>
    match alookup pre m.buckets with
    | some b => alookup key b.entries
    | none => none
  | none => none

mutual

/-- `Mux.searchEntry`: the mux's own table first, then each group. -/
def searchEntry (path : Str) : Mux → Option Entry
  | .mk bs mw n g gs =>
    match getHandlerFunc (.mk bs mw n g gs) path with
    | some e => some e
    | none => searchGroups path gs

def searchGroups (path : Str) : List (Str × Mux) → Option Entry
  | [] => none
  | (_, gm) :: rest =>
    match searchEntry path gm with
    | some e => some e
    | none => searchGroups path rest

end

/-- Observable dispatch events: a middleware invocation, a handler
invocation, the registered not-found handler, or the built-in 404
response (whose body names the request's original URL). -/
inductive Ev where
  | mw (id : Nat)
  | handler (id : Nat)
  | nfHandler (id : Nat)
  | default404 (rawPath : Str)
deriving DecidableEq, Repr

/-- `Mux.serveHandler`: run the mux's middleware chain, then the handler
if it is non-nil. -/
def serveHandlerT (mws : List Nat) (h : Option Nat) : List Ev :=
  mws.map Ev.mw ++ (match h with | some x => [Ev.handler x] | none => [])

/-- `Mux.serveEntry`: method-agnostic entries (`method == 0`) are served
by the primary handler; otherwise the request method selects its
dedicated slot when its bit is set, and an unsupported method serves
nothing at all. -/
def serveEntryT (mws : List Nat) (e : Entry) (mstr : Str) : List Ev :=
  if e.method = 0 then serveHandlerT mws e.handler
  else if mstr = "GET".toList ∧ e.method &&& mGET > 0 then serveHandlerT mws e.hGet
  else if mstr = "POST".toList ∧ e.method &&& mPOST > 0 then serveHandlerT mws e.hPost
  else if mstr = "PUT".toList ∧ e.method &&& mPUT > 0 then serveHandlerT mws e.hPut
  else if mstr = "DELETE".toList ∧ e.method &&& mDELETE > 0 then serveHandlerT mws e.hDelete
  else if mstr = "PATCH".toList ∧ e.method &&& mPATCH > 0 then serveHandlerT mws e.hPatch
  else if mstr = "HEAD".toList ∧ e.method &&& mHEAD > 0 then serveHandlerT mws e.hHead
  else if mstr = "OPTIONS".toList ∧ e.method &&& mOPTIONS > 0 then serveHandlerT mws e.hOptions
  else if mstr = "TRACE".toList ∧ e.method &&& mTRACE > 0 then serveHandlerT mws e.hTrace
  else if mstr = "CONNECT".toList ∧ e.method &&& mCONNECT > 0 then serveHandlerT mws e.hConnect
  else []

/-- `Mux.ServeHTTP`: normalize the path, search, and either serve the
entry (with this mux's middleware), run the registered not-found
handler, or emit the built-in 404 naming the original URL. -/
def serveHTTP (m : Mux) (rawPath : Str) (mstr : Str) : List Ev :=
  match searchEntry (replace rawPath) m with
  | some e => serveEntryT m.middlewares e mstr
  | none =>
    match m.nf with
    | some x => [Ev.nfHandler x]
    | none => [Ev.default404 rawPath]

/-! ## `Use`, `NotFound`, `Group`, `Params` -/

/-- `Mux.Use`: append a middleware handler. -/
def useOp (m : Mux) (h : Nat) : Mux :=
  match m with
  | .mk b mw n g gs => .mk b (mw ++ [h]) n g gs

/-- `Mux.NotFound`. -/
def notFoundOp (m : Mux) (h : Nat) : Mux :=
  match m with
  | .mk b mw _ g gs => .mk b mw (some h) g gs

def Mux.setMiddlewares : Mux → List Nat → Mux
  | .mk b _ n g gs, mw => .mk b mw n g gs

def Mux.setGroups : Mux → List (Str × Mux) → Mux
  | .mk b mw n g _, gs => .mk b mw n g gs

/-- A group's setup closure, modelled as the sequence of `Handle`
registrations it performs on the fresh group mux. -/
def runSetup : Mux → List (Str × Nat) → Except MuxErr Mux
  | m, [] => .ok m
  | m, (pat, h) :: rest =>
    match handleOp m pat h with
    | .error err => .error err
    | .ok r => runSetup r.1 rest

/-- `Mux.Group`: normalize the prefix, run the setup closure against a
fresh group mux, fail if a group already exists at that prefix
(`panic(ErrGroupExisted)`), otherwise snapshot the parent's middleware
into the group and register it. -/
def groupOp (m : Mux) (g : Str) (acts : List (Str × Nat)) : Except MuxErr Mux :=
  let g2 := replace g
  match runSetup (newGroup g2) acts with
  | .error err => .error err
  | .ok gm =>
    match alookup g2 m.groups with
    | some _ => .error .groupExisted
    | none => .ok (m.setGroups (aset g2 (gm.setMiddlewares m.middlewares) m.groups))

/-- The extraction loop of `Mux.Params`: walk the segment template and
the path segments in parallel, assigning `params[match[i]] = strs[i]` at
parameter positions. -/
def paramsLoop : List Str → List Str → List (Str × Str) → List (Str × Str)
  | mseg :: mrest, s :: srest, acc =>
    paramsLoop mrest srest (if mseg ≠ [] then aset mseg s acc else acc)
  | _, _, acc => acc

/-- `Mux.Params`: re-match the normalized path and zip the remainder's
segments against the matched entry's segment template. -/
def paramsOf (m : Mux) (rawPath : Str) : List (Str × Str) :=
  let path := replace rawPath
  match matchParams path m.buckets with
  | some (pre, key) =>
    match alookup pre m.buckets with
    | some b =>
      match alookup key b.entries with
      | some e =>
        if e.matchSeg.length > 0 ∧ path.length > pre.length then
          let strs := splitSep '/' (path.drop pre.length)
          if strs.length = e.matchSeg.length then paramsLoop e.matchSeg strs []
          else []
        else []
      | none => []
    | none => []
  | none => []

/-! ## Method selectors (`Entry.GET`, ..., `Entry.All`) -/

/-- The nine per-method selectors of mux.go. -/
inductive Sel where
  | sGET | sPOST | sPUT | sDELETE | sPATCH | sHEAD | sOPTIONS | sTRACE | sCONNECT
deriving DecidableEq, Repr

def selBit : Sel → Nat
  | .sGET => mGET
  | .sPOST => mPOST
  | .sPUT => mPUT
  | .sDELETE => mDELETE
  | .sPATCH => mPATCH
  | .sHEAD => mHEAD
  | .sOPTIONS => mOPTIONS
  | .sTRACE => mTRACE
  | .sCONNECT => mCONNECT

/-- The request-method string each selector gates on. -/
def selStr : Sel → Str
  | .sGET => "GET".toList
  | .sPOST => "POST".toList
  | .sPUT => "PUT".toList
  | .sDELETE => "DELETE".toList
  | .sPATCH => "PATCH".toList
  | .sHEAD => "HEAD".toList
  | .sOPTIONS => "OPTIONS".toList
  | .sTRACE => "TRACE".toList
  | .sCONNECT => "CONNECT".toList

/-- The per-method handler slot each selector fills. -/
def selSlot : Sel → Entry → Option Nat
  | .sGET, e => e.hGet
  | .sPOST, e => e.hPost
  | .sPUT, e => e.hPut
  | .sDELETE, e => e.hDelete
  | .sPATCH, e => e.hPatch
  | .sHEAD, e => e.hHead
  | .sOPTIONS, e => e.hOptions
  | .sTRACE, e => e.hTrace
  | .sCONNECT, e => e.hConnect

/-- A selector call: set the method bit and copy the current primary
handler into the method's dedicated slot (e.g. `Entry.GET`). -/
def selApply : Sel → Entry → Entry
  | .sGET, e => { e with method := e.method ||| mGET, hGet := e.handler }
  | .sPOST, e => { e with method := e.method ||| mPOST, hPost := e.handler }
  | .sPUT, e => { e with method := e.method ||| mPUT, hPut := e.handler }
  | .sDELETE, e => { e with method := e.method ||| mDELETE, hDelete := e.handler }
  | .sPATCH, e => { e with method := e.method ||| mPATCH, hPatch := e.handler }
  | .sHEAD, e => { e with method := e.method ||| mHEAD, hHead := e.handler }
  | .sOPTIONS, e => { e with method := e.method ||| mOPTIONS, hOptions := e.handler }
  | .sTRACE, e => { e with method := e.method ||| mTRACE, hTrace := e.handler }
  | .sCONNECT, e => { e with method := e.method ||| mCONNECT, hConnect := e.handler }

/-- `Entry.All`: apply every selector, in mux.go's order. -/
def entryAll (e : Entry) : Entry :=
  selApply .sCONNECT (selApply .sTRACE (selApply .sDELETE (selApply .sPATCH
    (selApply .sPUT (selApply .sOPTIONS (selApply .sHEAD
      (selApply .sPOST (selApply .sGET e))))))))

/-- Selector calls mutate the entry that `Handle` stored in the mux
(Go mutates through the returned pointer); `applyAt` performs that
mutation at the entry's (prefix, key) location. -/
def applyAt (m : Mux) (pre key : Str) (f : Entry → Entry) : Mux :=
  match alookup pre m.buckets with
  | some b =>
    match alookup key b.entries with
    | some e => m.setBuckets (aset pre { b with entries := aset key (f e) b.entries } m.buckets)
    | none => m
  | none => m

/-! ## Server layer: `Rum.Close` (rum.go) -/

/-- The registry state of the `Rum` struct: the active listener and
reactor (`netpoll.Server`) registries and the externally supplied
handler reference. -/
structure RumSrv where
  listeners : List Nat
  pollers : List Nat
  handler : Option Nat
deriving DecidableEq, Repr

/-- The environment `Close` acts on: which listeners and reactor
instances have had their `Close` method called. -/
structure NetWorld where
  closedListeners : List Nat
  closedPollers : List Nat
deriving DecidableEq, Repr

/-- `Rum.Close`: close every registered listener and reactor instance,
clear both registries, detach the handler, and return a nil error. -/
def rumClose (r : RumSrv) (w : NetWorld) : RumSrv × NetWorld × Option Nat :=
  (⟨[], [], none⟩,
   ⟨w.closedListeners ++ r.listeners, w.closedPollers ++ r.pollers⟩,
   none)

/-! ## Server layer: response ordering (rum.go, `serveConn` and the
reactor serve callback) -/

/-- The blocking engine's per-connection loop (`Rum.serveConn`): decode
one request, dispatch it (`respond r` is the response the handler
produces for request `r`), emit, repeat until decode fails.  The input
list is the connection's request stream up to the first decode failure. -/
def serveConnT (respond : Nat → Nat) : List Nat → List Nat
  | [] => []
  | r :: rest => respond r :: serveConnT respond rest

/-- Reactor-engine per-connection session state: the buffered stream of
not-yet-decoded requests, the `serving` mutex, the request currently
inside the locked decode/dispatch/encode section (if any), and the
responses already written to the connection, in order. -/
structure Conn where
  pending : List Nat
  locked : Bool
  inflight : Option Nat
  emitted : List Nat
deriving DecidableEq, Repr

/-- A readiness-event callback acquires the session's `serving` lock and
decodes one request.  Blocks (is not enabled) while another worker holds
the lock. -/
def connStart (co : Conn) : Option Conn :=
  if co.locked then none
  else
    match co.pending with
    | [] => none
    | r :: rest => some { co with pending := rest, locked := true, inflight := some r }

/-- The rest of the locked section: dispatch, encode/flush the response,
release the lock. -/
def connFinish (co : Conn) : Option Conn :=
  if co.locked then
    match co.inflight with
    | some r => some { pending := co.pending, locked := false, inflight := none,
                       emitted := co.emitted ++ [r] }
    | none => none
  else none

/-- One scheduler step of the reactor engine: some worker advances the
callback for one connection, either entering the locked section
(`start`) or completing it (`finish`).  Workers for different
connections interleave arbitrarily. -/
inductive PollStep : List Conn → List Conn → Prop where
  | start (s : List Conn) (i : Nat) (co c2 : Conn) :
      s.get? i = some co → connStart co = some c2 → PollStep s (s.set i c2)
  | finish (s : List Conn) (i : Nat) (co c2 : Conn) :
      s.get? i = some co → connFinish co = some c2 → PollStep s (s.set i c2)

/-- Initial reactor state: every connection has its arrival stream
pending, the lock free, nothing in flight and nothing emitted. -/
def pollInit (arrivals : List (List Nat)) : List Conn :=
  arrivals.map (fun reqs => ⟨reqs, false, none, []⟩)

/-- Reachability under arbitrary worker interleavings. -/
def PollReach (arrivals : List (List Nat)) (s : List Conn) : Prop :=
  Relation.ReflTransGen PollStep (pollInit arrivals) s

/-- The list of the requests a connection has consumed, in order:
emitted responses, then the in-flight request, then what is pending. -/
def connTrace (co : Conn) : List Nat :=
  co.emitted ++ (match co.inflight with | some r => [r] | none => []) ++ co.pending

/-! ## Lemmas: `replace` computes `collapse` -/

/-- Induction principle following the two-element patterns of
`replacePairAll` and `collapse`. -/
theorem twoStep {motive : Str → Prop} (h1 : motive []) (h2 : ∀ x, motive [x])
    (h3 : ∀ x y rest, motive (y :: rest) → motive rest → motive (x :: y :: rest)) :
    ∀ s, motive s
  | [] => h1
  | [x] => h2 x
  | x :: y :: rest => h3 x y rest (twoStep h1 h2 h3 (y :: rest)) (twoStep h1 h2 h3 rest)

theorem head?_replacePairAll (s : Str) : (replacePairAll s).head? = s.head? := by
  induction s using twoStep with
  | h1 => rfl
  | h2 x => rfl
  | h3 x y rest ih1 ih2 =>
    by_cases h : x = '/' ∧ y = '/'
    · simp [replacePairAll, h]
    · rw [replacePairAll]
      rw [if_neg (by simpa using h)]
      rfl

theorem head?_collapse (s : Str) : (collapse s).head? = s.head? := by
  induction s using twoStep with
  | h1 => rfl
  | h2 x => rfl
  | h3 x y rest ih1 ih2 =>
    by_cases h : x = '/' ∧ y = '/'
    · obtain ⟨hx, hy⟩ := h
      subst hx hy
      have l2 : collapse ('/' :: '/' :: rest) = collapse ('/' :: rest) := by
        rw [collapse]
        simp
      rw [l2, ih1]
      simp
    · rw [collapse, if_neg (by simpa using h)]
      rfl

theorem collapse_cons (c : Char) (s : Str) :
    collapse (c :: s) =
      if c = '/' ∧ s.head? = some '/' then collapse s else c :: collapse s := by
  cases s with
  | nil => simp [collapse]
  | cons y rest =>
    by_cases h : c = '/' ∧ y = '/'
    · rw [collapse, if_pos (by simp [h.1, h.2]), if_pos (by simp [h.1, h.2])]
    · rw [collapse, if_neg (by simpa using h), if_neg (by simpa using h)]

theorem collapse_replacePairAll (s : Str) :
    collapse (replacePairAll s) = collapse s := by
  induction s using twoStep with
  | h1 => rfl
  | h2 x => rfl
  | h3 x y rest ih1 ih2 =>
    by_cases h : x = '/' ∧ y = '/'
    · obtain ⟨hx, hy⟩ := h
      subst hx hy
      have l1 : replacePairAll ('/' :: '/' :: rest) = '/' :: replacePairAll rest := by
        rw [replacePairAll]
        simp
      have l2 : collapse ('/' :: '/' :: rest) = collapse ('/' :: rest) := by
        rw [collapse]
        simp
      rw [l1, l2, collapse_cons, collapse_cons, head?_replacePairAll, ih2]
    · rw [replacePairAll, if_neg (by simpa using h)]
      rw [collapse_cons, head?_replacePairAll, ih1, ← collapse_cons]

theorem replacePairAll_length_le (s : Str) :
    (replacePairAll s).length ≤ s.length := by
  induction s using twoStep with
  | h1 => simp [replacePairAll]
  | h2 x => simp [replacePairAll]
  | h3 x y rest ih1 ih2 =>
    by_cases h : x = '/' ∧ y = '/'
    · rw [replacePairAll, if_pos (by simp [h.1, h.2])]
      simp only [List.length_cons]
      omega
    · rw [replacePairAll, if_neg (by simpa using h)]
      simp only [List.length_cons] at ih1 ⊢
      omega

theorem replacePairAll_length_lt (s : Str) (h : containsPair '/' '/' s = true) :
    (replacePairAll s).length < s.length := by
  induction s using twoStep with
  | h1 => simp [containsPair] at h
  | h2 x => simp [containsPair] at h
  | h3 x y rest ih1 ih2 =>
    by_cases hp : x = '/' ∧ y = '/'
    · rw [replacePairAll, if_pos (by simp [hp.1, hp.2])]
      have := replacePairAll_length_le rest
      simp only [List.length_cons]
      omega
    · rw [containsPair] at h
      have h2 : containsPair '/' '/' (y :: rest) = true := by
        rcases Bool.or_eq_true_iff.mp h with h' | h'
        · exact absurd (by simpa using h') hp
        · exact h'
      rw [replacePairAll, if_neg (by simpa using hp)]
      have := ih1 h2
      simp only [List.length_cons] at this ⊢
      omega

theorem collapse_of_not_containsPair (s : Str)
    (h : containsPair '/' '/' s = false) : collapse s = s := by
  induction s using twoStep with
  | h1 => rfl
  | h2 x => rfl
  | h3 x y rest ih1 ih2 =>
    rw [containsPair] at h
    have h1 : ¬(x = '/' ∧ y = '/') := by
      intro hc
      simp [hc.1, hc.2] at h
    have h2 : containsPair '/' '/' (y :: rest) = false := by
      rcases Bool.or_eq_false_iff.mp h with ⟨_, h'⟩
      exact h'
    rw [collapse, if_neg (by simpa using h1), ih1 h2]

theorem containsPair_collapse (s : Str) :
    containsPair '/' '/' (collapse s) = false := by
  induction s using twoStep with
  | h1 => rfl
  | h2 x => rfl
  | h3 x y rest ih1 ih2 =>
    by_cases h : x = '/' ∧ y = '/'
    · rw [collapse, if_pos (by simp [h.1, h.2])]
      exact ih1
    · rw [collapse, if_neg (by simpa using h)]
      rcases hc : collapse (y :: rest) with _ | ⟨z, l2⟩
      · rfl
      · have hz : z = y := by
          have h0 := head?_collapse (y :: rest)
          rw [hc] at h0
          simp only [List.head?_cons] at h0
          exact Option.some.inj h0
        rw [containsPair]
        rw [hc] at ih1
        simp only [ih1, Bool.or_false]
        subst hz
        simpa using h

theorem replaceLoop_eq_collapse :
    ∀ (n : Nat) (s : Str), s.length ≤ n → replaceLoop n s = collapse s := by
  intro n
  induction n with
  | zero =>
    intro s hs
    have : s = [] := List.eq_nil_of_length_eq_zero (Nat.le_zero.mp hs)
    subst this
    rfl
  | succ n ih =>
    intro s hs
    rw [replaceLoop]
    by_cases h : containsPair '/' '/' s = true
    · rw [if_pos h]
      have hlt := replacePairAll_length_lt s h
      rw [ih _ (by omega), collapse_replacePairAll]
    · rw [if_neg h]
      exact (collapse_of_not_containsPair s (Bool.not_eq_true _ ▸ h)).symm

/-- `Mux.replace` computes exactly the spec's separator collapsing. -/
theorem replace_eq_collapse (s : Str) : replace s = collapse s :=
  replaceLoop_eq_collapse s.length s le_rfl

theorem collapse_idem (s : Str) : collapse (collapse s) = collapse s :=
  collapse_of_not_containsPair _ (containsPair_collapse s)

theorem replace_collapse (s : Str) : replace (collapse s) = collapse s := by
  rw [replace_eq_collapse, collapse_idem]

/-- A string with no adjacent separators is untouched by `replace`. -/
theorem replace_of_not_containsPair (s : Str)
    (h : containsPair '/' '/' s = false) : replace s = s := by
  rw [replace_eq_collapse]
  exact collapse_of_not_containsPair s h

/-! ## Claim C5: method gating in `serveEntry` -/

/-- Bit-or with a nonzero constant is nonzero. -/
theorem lor_ne_zero_right (a b : Nat) (hb : b ≠ 0) : a ||| b ≠ 0 := by
  intro h
  apply hb
  apply Nat.eq_of_testBit_eq
  intro i
  have h1 : (a ||| b).testBit i = false := by
    rw [h]
    exact Nat.zero_testBit i
  rw [Nat.testBit_lor] at h1
  rcases Bool.or_eq_false_iff.mp h1 with ⟨-, h2⟩
  rw [h2]
  exact (Nat.zero_testBit i).symm

/-- A matched entry with a nonzero method mask serves a supported
request method by that method's dedicated handler slot. -/
theorem serveEntryT_sel (mws : List Nat) (e : Entry) (sel : Sel)
    (hne : e.method ≠ 0) (hbit : e.method &&& selBit sel > 0) :
    serveEntryT mws e (selStr sel) = serveHandlerT mws (selSlot sel e) := by
  cases sel with
    | sGET =>
      rw [serveEntryT, if_neg hne, if_pos ⟨rfl, hbit⟩]
      rfl
    | sPOST =>
      rw [serveEntryT, if_neg hne,
        if_neg (by rintro ⟨hh, -⟩; exact absurd hh (by decide)),
        if_pos ⟨rfl, hbit⟩]
      rfl
    | sPUT =>
      rw [serveEntryT, if_neg hne,
        if_neg (by rintro ⟨hh, -⟩; exact absurd hh (by decide)),
        if_neg (by rintro ⟨hh, -⟩; exact absurd hh (by decide)),
        if_pos ⟨rfl, hbit⟩]
      rfl
    | sDELETE =>
      rw [serveEntryT, if_neg hne,
        if_neg (by rintro ⟨hh, -⟩; exact absurd hh (by decide)),
        if_neg (by rintro ⟨hh, -⟩; exact absurd hh (by decide)),
        if_neg (by rintro ⟨hh, -⟩; exact absurd hh (by decide)),
        if_pos ⟨rfl, hbit⟩]
      rfl
    | sPATCH =>
      rw [serveEntryT, if_neg hne,
        if_neg (by rintro ⟨hh, -⟩; exact absurd hh (by decide)),
        if_neg (by rintro ⟨hh, -⟩; exact absurd hh (by decide)),
        if_neg (by rintro ⟨hh, -⟩; exact absurd hh (by decide)),
        if_neg (by rintro ⟨hh, -⟩; exact absurd hh (by decide)),
        if_pos ⟨rfl, hbit⟩]
      rfl
    | sHEAD =>
      rw [serveEntryT, if_neg hne,
        if_neg (by rintro ⟨hh, -⟩; exact absurd hh (by decide)),
        if_neg (by rintro ⟨hh, -⟩; exact absurd hh (by decide)),
        if_neg (by rintro ⟨hh, -⟩; exact absurd hh (by decide)),
        if_neg (by rintro ⟨hh, -⟩; exact absurd hh (by decide)),
        if_neg (by rintro ⟨hh, -⟩; exact absurd hh (by decide)),
        if_pos ⟨rfl, hbit⟩]
      rfl
    | sOPTIONS =>
      rw [serveEntryT, if_neg hne,
        if_neg (by rintro ⟨hh, -⟩; exact absurd hh (by decide)),
        if_neg (by rintro ⟨hh, -⟩; exact absurd hh (by decide)),
        if_neg (by rintro ⟨hh, -⟩; exact absurd hh (by decide)),
        if_neg (by rintro ⟨hh, -⟩; exact absurd hh (by decide)),
        if_neg (by rintro ⟨hh, -⟩; exact absurd hh (by decide)),
        if_neg (by rintro ⟨hh, -⟩; exact absurd hh (by decide)),
        if_pos ⟨rfl, hbit⟩]
      rfl
    | sTRACE =>
      rw [serveEntryT, if_neg hne,
        if_neg (by rintro ⟨hh, -⟩; exact absurd hh (by decide)),
        if_neg (by rintro ⟨hh, -⟩; exact absurd hh (by decide)),
        if_neg (by rintro ⟨hh, -⟩; exact absurd hh (by decide)),
        if_neg (by rintro ⟨hh, -⟩; exact absurd hh (by decide)),
        if_neg (by rintro ⟨hh, -⟩; exact absurd hh (by decide)),
        if_neg (by rintro ⟨hh, -⟩; exact absurd hh (by decide)),
        if_neg (by rintro ⟨hh, -⟩; exact absurd hh (by decide)),
        if_pos ⟨rfl, hbit⟩]
      rfl
    | sCONNECT =>
      rw [serveEntryT, if_neg hne,
        if_neg (by rintro ⟨hh, -⟩; exact absurd hh (by decide)),
        if_neg (by rintro ⟨hh, -⟩; exact absurd hh (by decide)),
        if_neg (by rintro ⟨hh, -⟩; exact absurd hh (by decide)),
        if_neg (by rintro ⟨hh, -⟩; exact absurd hh (by decide)),
        if_neg (by rintro ⟨hh, -⟩; exact absurd hh (by decide)),
        if_neg (by rintro ⟨hh, -⟩; exact absurd hh (by decide)),
        if_neg (by rintro ⟨hh, -⟩; exact absurd hh (by decide)),
        if_neg (by rintro ⟨hh, -⟩; exact absurd hh (by decide)),
        if_pos ⟨rfl, hbit⟩]
      rfl
/-- A matched entry with a nonzero method mask serves nothing at all for
an unsupported request method. -/
theorem serveEntryT_block (mws : List Nat) (e : Entry) (mstr : Str)
    (hne : e.method ≠ 0)
    (hall : ∀ sel : Sel, mstr = selStr sel → e.method &&& selBit sel = 0) :
    serveEntryT mws e mstr = [] := by
  rw [serveEntryT, if_neg hne,
      if_neg (by
        rintro ⟨h1, h2⟩
        have h3 := hall .sGET h1
        simp only [selBit] at h3
        omega),
      if_neg (by
        rintro ⟨h1, h2⟩
        have h3 := hall .sPOST h1
        simp only [selBit] at h3
        omega),
      if_neg (by
        rintro ⟨h1, h2⟩
        have h3 := hall .sPUT h1
        simp only [selBit] at h3
        omega),
      if_neg (by
        rintro ⟨h1, h2⟩
        have h3 := hall .sDELETE h1
        simp only [selBit] at h3
        omega),
      if_neg (by
        rintro ⟨h1, h2⟩
        have h3 := hall .sPATCH h1
        simp only [selBit] at h3
        omega),
      if_neg (by
        rintro ⟨h1, h2⟩
        have h3 := hall .sHEAD h1
        simp only [selBit] at h3
        omega),
      if_neg (by
        rintro ⟨h1, h2⟩
        have h3 := hall .sOPTIONS h1
        simp only [selBit] at h3
        omega),
      if_neg (by
        rintro ⟨h1, h2⟩
        have h3 := hall .sTRACE h1
        simp only [selBit] at h3
        omega),
      if_neg (by
        rintro ⟨h1, h2⟩
        have h3 := hall .sCONNECT h1
        simp only [selBit] at h3
        omega)]
/-- Every selector call leaves the method mask nonzero. -/
theorem selApply_method_ne_zero (e : Entry) (sel : Sel) :
    (selApply sel e).method ≠ 0 := by
  cases sel <;>
    · simp only [selApply]
      exact lor_ne_zero_right _ _ (by decide)

/-- C5.  For every matched Entry: with `method == 0` (no selector ever
applied — selectors are the only writers of `method` and always set a
bit) the single primary handler serves any request method; with
`method ≠ 0`, a request whose method is supported (its bit is set) is
served by that method's dedicated slot, and a request whose method is
unsupported (bit clear, or not an HTTP method at all) invokes no
middleware and no handler and produces no events at all. -/
theorem claim5_method_gating (mws : List Nat) (e : Entry) (mstr : Str) :
    (e.method = 0 → serveEntryT mws e mstr = serveHandlerT mws e.handler) ∧
    (e.method ≠ 0 → ∀ sel : Sel, mstr = selStr sel → e.method &&& selBit sel > 0 →
        serveEntryT mws e mstr = serveHandlerT mws (selSlot sel e)) ∧
    (e.method ≠ 0 → (∀ sel : Sel, mstr = selStr sel → e.method &&& selBit sel = 0) →
        serveEntryT mws e mstr = []) ∧
    (∀ sel : Sel, (selApply sel e).method ≠ 0) := by
  refine ⟨?_, ?_, ?_, ?_⟩
  · intro h0
    rw [serveEntryT, if_pos h0]
  · intro hne sel hstr hbit
    subst hstr
    exact serveEntryT_sel mws e sel hne hbit
  · intro hne hall
    exact serveEntryT_block mws e mstr hne hall
  · intro sel
    exact selApply_method_ne_zero e sel

/-- Witness for C5 at concrete entries: a method-agnostic entry serves a
GET by its primary handler; an entry gated to GET serves GET by the GET
slot and serves nothing for POST. -/
theorem claim5_method_gating_witness :
    serveEntryT [] { handler := some 3 } "GET".toList = [Ev.handler 3] ∧
    serveEntryT [] { handler := some 1, hGet := some 2, method := mGET }
      "GET".toList = [Ev.handler 2] ∧
    serveEntryT [] { handler := some 1, hGet := some 2, method := mGET }
      "POST".toList = [] := by
  refine ⟨?_, ?_, ?_⟩
  · exact (claim5_method_gating [] { handler := some 3 } "GET".toList).1 rfl
  · exact (claim5_method_gating [] { handler := some 1, hGet := some 2, method := mGET }
      "GET".toList).2.1 (by decide) .sGET rfl (by decide)
  · exact (claim5_method_gating [] { handler := some 1, hGet := some 2, method := mGET }
      "POST".toList).2.2.1 (by decide)
      (fun sel hh => by cases sel <;> first | exact absurd hh (by decide) | decide)

/-! ## Claim C8: `Rum.Close` -/

/-- C8.  `Close` closes every registered listener and reactor instance,
empties both registries, detaches the handler reference, and returns a
nil error; a second `Close` on the already-stopped server also returns a
nil error and changes nothing (there is nothing left to close). -/
theorem claim8_close_idempotent (r : RumSrv) (w : NetWorld) :
    (rumClose r w).1 = ⟨[], [], none⟩ ∧
    (rumClose r w).2.2 = none ∧
    (∀ l ∈ r.listeners, l ∈ (rumClose r w).2.1.closedListeners) ∧
    (∀ p ∈ r.pollers, p ∈ (rumClose r w).2.1.closedPollers) ∧
    rumClose (rumClose r w).1 (rumClose r w).2.1 =
      ((rumClose r w).1, (rumClose r w).2.1, none) := by
  refine ⟨rfl, rfl, ?_, ?_, ?_⟩
  · intro l hl
    simp [rumClose]
    right
    exact hl
  · intro p hp
    simp [rumClose]
    right
    exact hp
  · simp [rumClose]

/-- Witness for C8 at a concrete server state. -/
theorem claim8_close_idempotent_witness :
    (rumClose ⟨[1, 2], [3], some 9⟩ ⟨[], []⟩).1 = ⟨[], [], none⟩ ∧
    (1 : Nat) ∈ (rumClose ⟨[1, 2], [3], some 9⟩ ⟨[], []⟩).2.1.closedListeners := by
  refine ⟨(claim8_close_idempotent ⟨[1, 2], [3], some 9⟩ ⟨[], []⟩).1, ?_⟩
  exact (claim8_close_idempotent ⟨[1, 2], [3], some 9⟩ ⟨[], []⟩).2.2.1 1 (by decide)

/-! ## Claim C9: per-connection response ordering -/

/-- Per-connection invariant of the reactor system: the connection's
consumption trace is exactly its original arrival stream, and the
`serving` lock is held whenever a request is inside the locked
decode/dispatch/encode section. -/
def ConnInv (orig : List Nat) (co : Conn) : Prop :=
  connTrace co = orig ∧ (co.locked = false → co.inflight = none)

theorem connStart_inv (orig : List Nat) (co c2 : Conn)
    (hinv : ConnInv orig co) (hs : connStart co = some c2) : ConnInv orig c2 := by
  obtain ⟨htr, hwf⟩ := hinv
  rw [connStart] at hs
  by_cases hl : co.locked
  · rw [if_pos hl] at hs
    exact absurd hs (by simp)
  · rw [if_neg hl] at hs
    rcases hp : co.pending with _ | ⟨r, rest⟩
    · rw [hp] at hs
      exact absurd hs (by simp)
    · rw [hp] at hs
      have hc2 := Option.some.inj hs
      have hnone := hwf (by simpa using hl)
      constructor
      · rw [← htr, ← hc2]
        simp [connTrace, hnone, hp]
      · intro hlf
        rw [← hc2] at hlf
        simp at hlf

theorem connFinish_inv (orig : List Nat) (co c2 : Conn)
    (hinv : ConnInv orig co) (hs : connFinish co = some c2) : ConnInv orig c2 := by
  obtain ⟨htr, hwf⟩ := hinv
  rw [connFinish] at hs
  by_cases hl : co.locked
  · rw [if_pos hl] at hs
    rcases hp : co.inflight with _ | r
    · rw [hp] at hs
      exact absurd hs (by simp)
    · rw [hp] at hs
      have hc2 := Option.some.inj hs
      constructor
      · rw [← htr, ← hc2]
        simp [connTrace, hp]
      · intro hlf
        rw [← hc2]
  · rw [if_neg hl] at hs
    exact absurd hs (by simp)

theorem pollStep_length (s s2 : List Conn) (h : PollStep s s2) :
    s2.length = s.length := by
  cases h with
  | start i co c2 hg hc => exact List.length_set s i c2
  | finish i co c2 hg hc => exact List.length_set s i c2

theorem pollStep_inv (arrivals : List (List Nat)) (s s2 : List Conn)
    (h : PollStep s s2)
    (hinv : ∀ i reqs co, arrivals.get? i = some reqs → s.get? i = some co →
      ConnInv reqs co) :
    ∀ i reqs co, arrivals.get? i = some reqs → s2.get? i = some co →
      ConnInv reqs co := by
  cases h with
  | start j co c2 hg hc =>
    intro i reqs co2 ha hg2
    by_cases hij : i = j
    · subst hij
      have hlt : i < s.length := by
        rcases List.get?_eq_some.mp hg with ⟨hh, -⟩
        exact hh
      rw [List.get?_set_eq_of_lt _ hlt] at hg2
      have hco2 : co2 = c2 := (Option.some.inj hg2).symm
      rw [hco2]
      exact connStart_inv reqs co c2 (hinv i reqs co ha hg) hc
    · rw [List.get?_set_ne _ _ (fun hh => hij hh.symm)] at hg2
      exact hinv i reqs co2 ha hg2
  | finish j co c2 hg hc =>
    intro i reqs co2 ha hg2
    by_cases hij : i = j
    · subst hij
      have hlt : i < s.length := by
        rcases List.get?_eq_some.mp hg with ⟨hh, -⟩
        exact hh
      rw [List.get?_set_eq_of_lt _ hlt] at hg2
      have hco2 : co2 = c2 := (Option.some.inj hg2).symm
      rw [hco2]
      exact connFinish_inv reqs co c2 (hinv i reqs co ha hg) hc
    · rw [List.get?_set_ne _ _ (fun hh => hij hh.symm)] at hg2
      exact hinv i reqs co2 ha hg2

theorem pollReach_inv (arrivals : List (List Nat)) (s : List Conn)
    (h : PollReach arrivals s) :
    ∀ i reqs co, arrivals.get? i = some reqs → s.get? i = some co →
      ConnInv reqs co := by
  induction h with
  | refl =>
    intro i reqs co ha hg
    rw [pollInit, List.get?_map, ha] at hg
    have hco := Option.some.inj hg
    constructor
    · rw [← hco]
      simp [connTrace]
    · intro _
      rw [← hco]
  | tail hsteps hstep ih =>
    exact pollStep_inv arrivals _ _ hstep ih

/-- C9.  Responses on a single connection are emitted in the order the
requests were received, under both engines.  Blocking engine: the
sequential `serveConn` loop emits exactly the responses of the decoded
requests, in decode order.  Reactor engine: in every state reachable
under arbitrary interleaving of reactor workers, each connection's
emitted responses are a prefix of its arrival stream (the `serving` lock
admits at most one in-flight decode/dispatch/encode per connection, so
emissions happen in decode order). -/
theorem claim9_response_ordering :
    (∀ (respond : Nat → Nat) (reqs : List Nat),
        serveConnT respond reqs = reqs.map respond) ∧
    (∀ (arrivals : List (List Nat)) (s : List Conn), PollReach arrivals s →
        ∀ i reqs co, arrivals.get? i = some reqs → s.get? i = some co →
          co.emitted <+: reqs) := by
  constructor
  · intro f reqs
    induction reqs with
    | nil => rfl
    | cons r rest ih => simp [serveConnT, ih]
  · intro arrivals s h i reqs co ha hg
    obtain ⟨htr, -⟩ := pollReach_inv arrivals s h i reqs co ha hg
    exact ⟨_, by rw [← htr, connTrace, List.append_assoc]⟩

/-- Witness for C9: the blocking loop on a concrete stream, and a
concrete two-step reactor execution (lock, decode, emit). -/
theorem claim9_response_ordering_witness :
    serveConnT (fun r => r + 10) [1, 2] = [11, 12] ∧
    (⟨[2], false, none, [1]⟩ : Conn).emitted <+: [1, 2] := by
  constructor
  · exact (claim9_response_ordering.1 (fun r => r + 10) [1, 2]).trans (by decide)
  · refine claim9_response_ordering.2 [[1, 2]]
      [⟨[2], false, none, [1]⟩] ?_ 0 [1, 2] _ rfl rfl
    have h1 : PollStep (pollInit [[1, 2]]) [⟨[2], true, some 1, []⟩] := by
      have := PollStep.start (pollInit [[1, 2]]) 0
        ⟨[1, 2], false, none, []⟩ ⟨[2], true, some 1, []⟩ rfl rfl
      simpa [pollInit] using this
    have h2 : PollStep [⟨[2], true, some 1, []⟩] [⟨[2], false, none, [1]⟩] := by
      have := PollStep.finish [⟨[2], true, some 1, []⟩] 0
        ⟨[2], true, some 1, []⟩ ⟨[2], false, none, [1]⟩ rfl rfl
      simpa using this
    exact Relation.ReflTransGen.head h1 (Relation.ReflTransGen.single h2)

/-! ## Association-list lemmas -/

theorem alookup_aset_self {α : Type} (k : Str) (v : α) (l : List (Str × α)) :
    alookup k (aset k v l) = some v := by
  induction l with
  | nil => simp [aset, alookup]
  | cons kv rest ih =>
    obtain ⟨k2, w⟩ := kv
    by_cases h : k2 = k
    · rw [aset, if_pos h, alookup, if_pos rfl]
    · rw [aset, if_neg h, alookup, if_neg h, ih]

theorem alookup_aset_ne {α : Type} (k k2 : Str) (v : α) (l : List (Str × α))
    (h : k ≠ k2) : alookup k2 (aset k v l) = alookup k2 l := by
  induction l with
  | nil => simp [aset, alookup, h]
  | cons kv rest ih =>
    obtain ⟨k3, w⟩ := kv
    by_cases h3 : k3 = k
    · subst h3
      rw [aset, if_pos rfl, alookup, if_neg h, alookup, if_neg h]
    · rw [aset, if_neg h3, alookup, alookup, ih]

/-- The number of bindings of key `k` in an association list. -/
def keyCount {α : Type} (k : Str) (l : List (Str × α)) : Nat :=
  (l.filter (fun kv => kv.1 = k)).length

theorem keyCount_aset {α : Type} (k : Str) (v : α) (l : List (Str × α)) :
    keyCount k (aset k v l) = if keyCount k l = 0 then 1 else keyCount k l := by
  induction l with
  | nil => simp [aset, keyCount]
  | cons kv rest ih =>
    obtain ⟨k2, w⟩ := kv
    by_cases h : k2 = k
    · rw [aset, if_pos h]
      have hc1 : keyCount k ((k, v) :: rest) = keyCount k rest + 1 := by
        simp [keyCount, List.filter_cons]
      have hc2 : keyCount k ((k2, w) :: rest) = keyCount k rest + 1 := by
        simp [keyCount, List.filter_cons, h]
      rw [hc2, hc1, if_neg (Nat.succ_ne_zero _)]
    · rw [aset, if_neg h]
      have hd : decide (k2 = k) = false := by simpa using h
      have hc3 : ∀ l2 : List (Str × α), keyCount k ((k2, w) :: l2) = keyCount k l2 := by
        intro l2
        simp [keyCount, List.filter_cons, hd]
      rw [hc3, hc3]
      exact ih

/-! ## `Handle` in explicit form -/

/-- The bucket `Mux.Handle` stores for parse result `p`: the existing
bucket with the entry set at the shape key (updating an existing entry
in place), or a fresh single-entry bucket. -/
def bucketAfter (m : Mux) (p : Parsed) (h : Nat) : Bucket :=
  match alookup p.pre m.buckets with
  | some b =>
    let base : Entry :=
      match alookup p.key b.entries with
      | some e => e
      | none => {}
    { b with entries := aset p.key (reRegister p h base) b.entries }
  | none => ⟨p.pre, [(p.key, reRegister p h {})]⟩

theorem handleOp_eq (m : Mux) (pat : Str) (h : Nat) (p : Parsed)
    (hp : parseParams (m.groupPre ++ replace pat) = .ok p) :
    handleOp m pat h =
      .ok (m.setBuckets (aset p.pre (bucketAfter m p h) m.buckets), p.pre, p.key) := by
  simp only [handleOp, hp]
  rcases halo : alookup p.pre m.buckets with _ | b <;>
    simp only [bucketAfter, halo]

theorem setBuckets_groupPre (m : Mux) (b : List (Str × Bucket)) :
    (m.setBuckets b).groupPre = m.groupPre := by
  cases m
  rfl

theorem setBuckets_middlewares (m : Mux) (b : List (Str × Bucket)) :
    (m.setBuckets b).middlewares = m.middlewares := by
  cases m
  rfl

theorem setBuckets_buckets (m : Mux) (b : List (Str × Bucket)) :
    (m.setBuckets b).buckets = b := by
  cases m
  rfl

/-- The mux produced by a successful `Handle` with parse result `p`. -/
def afterHandle (m : Mux) (p : Parsed) (h : Nat) : Mux :=
  m.setBuckets (aset p.pre (bucketAfter m p h) m.buckets)

theorem handleOp_eq2 (m : Mux) (pat : Str) (h : Nat) (p : Parsed)
    (hp : parseParams (m.groupPre ++ replace pat) = .ok p) :
    handleOp m pat h = .ok (afterHandle m p h, p.pre, p.key) :=
  handleOp_eq m pat h p hp

theorem afterHandle_groupPre (m : Mux) (p : Parsed) (h : Nat) :
    (afterHandle m p h).groupPre = m.groupPre :=
  setBuckets_groupPre m _

theorem afterHandle_middlewares (m : Mux) (p : Parsed) (h : Nat) :
    (afterHandle m p h).middlewares = m.middlewares :=
  setBuckets_middlewares m _

theorem afterHandle_lookup_pre (m : Mux) (p : Parsed) (h : Nat) :
    alookup p.pre (afterHandle m p h).buckets = some (bucketAfter m p h) := by
  rw [afterHandle, setBuckets_buckets]
  exact alookup_aset_self p.pre _ m.buckets

/-- The entry `Handle` starts from: the existing entry at the location,
or the zero `Entry`. -/
def baseEntry (m : Mux) (p : Parsed) : Entry :=
  match alookup p.pre m.buckets with
  | some b =>
    match alookup p.key b.entries with
    | some e => e
    | none => {}
  | none => {}

theorem bucketAfter_lookup (m : Mux) (p : Parsed) (h : Nat) :
    alookup p.key (bucketAfter m p h).entries =
      some (reRegister p h (baseEntry m p)) := by
  rw [bucketAfter, baseEntry]
  rcases halo : alookup p.pre m.buckets with _ | b
  · rw [alookup, if_pos rfl]
  · exact alookup_aset_self p.key _ b.entries

theorem bucketAfter_keyCount (m : Mux) (p : Parsed) (h : Nat)
    (hcount : ∀ b, alookup p.pre m.buckets = some b →
      keyCount p.key b.entries ≤ 1) :
    keyCount p.key (bucketAfter m p h).entries = 1 := by
  rw [bucketAfter]
  rcases halo : alookup p.pre m.buckets with _ | b
  · simp [keyCount, List.filter_cons]
  · have hc := hcount b halo
    rw [keyCount_aset]
    rcases Nat.lt_or_ge (keyCount p.key b.entries) 1 with hlt | hge
    · rw [if_pos (by omega)]
    · rw [if_neg (by omega)]
      omega

theorem reRegister_method (p : Parsed) (h : Nat) (e : Entry) :
    (reRegister p h e).method = e.method := rfl

theorem reRegister_handler (p : Parsed) (h : Nat) (e : Entry) :
    (reRegister p h e).handler = some h := rfl

/-! ## Claim C4: re-registration updates in place -/

/-- C4.  Registering the same pattern twice leaves exactly one entry
reachable at the (literal prefix, shape key) location, holding the
latest handler, and a request dispatched to that entry is served by the
latest handler (the entry is method-agnostic provided no method selector
was ever applied at that location, which is the regime this claim and
its companion C10 divide between them). -/
theorem claim4_reregister_latest_wins (m : Mux) (pat : Str) (h1 h2 : Nat)
    (p : Parsed)
    (hp : parseParams (m.groupPre ++ replace pat) = .ok p)
    (hcount : ∀ b, alookup p.pre m.buckets = some b →
      keyCount p.key b.entries ≤ 1)
    (hmeth : ∀ b e, alookup p.pre m.buckets = some b →
      alookup p.key b.entries = some e → e.method = 0) :
    ∃ m1 m2 : Mux,
      handleOp m pat h1 = .ok (m1, p.pre, p.key) ∧
      handleOp m1 pat h2 = .ok (m2, p.pre, p.key) ∧
      ∃ b2, alookup p.pre m2.buckets = some b2 ∧
        keyCount p.key b2.entries = 1 ∧
        ∃ e2, alookup p.key b2.entries = some e2 ∧
          e2.handler = some h2 ∧
          ∀ mstr, serveEntryT m2.middlewares e2 mstr =
            m2.middlewares.map Ev.mw ++ [Ev.handler h2] := by
  have hp1 : parseParams ((afterHandle m p h1).groupPre ++ replace pat) = .ok p := by
    rw [afterHandle_groupPre]
    exact hp
  refine ⟨afterHandle m p h1, afterHandle (afterHandle m p h1) p h2,
    handleOp_eq2 m pat h1 p hp, handleOp_eq2 (afterHandle m p h1) pat h2 p hp1,
    bucketAfter (afterHandle m p h1) p h2,
    afterHandle_lookup_pre (afterHandle m p h1) p h2, ?_, ?_⟩
  · -- exactly one binding of the shape key after the second registration
    apply bucketAfter_keyCount
    intro b hb
    rw [afterHandle_lookup_pre] at hb
    have hb2 := Option.some.inj hb
    rw [← hb2, bucketAfter_keyCount m p h1 hcount]
  · -- the reachable entry holds the latest handler and is method-agnostic
    refine ⟨reRegister p h2 (baseEntry (afterHandle m p h1) p),
      bucketAfter_lookup (afterHandle m p h1) p h2, rfl, ?_⟩
    have hbase : baseEntry (afterHandle m p h1) p =
        reRegister p h1 (baseEntry m p) := by
      rw [baseEntry]
      simp only [afterHandle_lookup_pre, bucketAfter_lookup]
    have hm0 : (baseEntry m p).method = 0 := by
      rw [baseEntry]
      rcases halo : alookup p.pre m.buckets with _ | b
      · simp [halo]
      · rcases hke : alookup p.key b.entries with _ | e
        · simp [halo, hke]
        · simp only [halo, hke]
          exact hmeth b e halo hke
    intro mstr
    rw [serveEntryT, if_pos (by rw [reRegister_method, hbase, reRegister_method, hm0])]
    rw [reRegister_handler]
    rfl

/-- Witness for C4: registering `/hello` twice on a fresh mux leaves one
entry served by the second handler. -/
theorem claim4_reregister_latest_wins_witness :
    ∃ m1 m2 : Mux,
      handleOp emptyMux "/hello".toList 1 = .ok (m1, "/hello".toList, []) ∧
      handleOp m1 "/hello".toList 2 = .ok (m2, "/hello".toList, []) ∧
      ∃ b2, alookup "/hello".toList m2.buckets = some b2 ∧
        keyCount [] b2.entries = 1 ∧
        ∃ e2, alookup [] b2.entries = some e2 ∧
          e2.handler = some 2 ∧
          ∀ mstr, serveEntryT m2.middlewares e2 mstr =
            m2.middlewares.map Ev.mw ++ [Ev.handler 2] :=
  claim4_reregister_latest_wins emptyMux "/hello".toList 1 2
    ⟨"/hello".toList, [], [], []⟩ rfl
    (fun b hb => by simp [emptyMux, Mux.buckets, alookup] at hb)
    (fun b e hb he => by simp [emptyMux, Mux.buckets, alookup] at hb)

/-! ## Claim C10: selectors snapshot the primary handler -/

theorem land_lor_self (a b : Nat) : (a ||| b) &&& b = b := by
  apply Nat.eq_of_testBit_eq
  intro i
  rw [Nat.testBit_land, Nat.testBit_lor]
  cases ha : a.testBit i <;> cases hb : b.testBit i <;> simp

theorem selApply_method (sel : Sel) (e : Entry) :
    (selApply sel e).method = e.method ||| selBit sel := by
  cases sel <;> rfl

theorem selApply_selSlot (sel : Sel) (e : Entry) :
    selSlot sel (selApply sel e) = e.handler := by
  cases sel <;> rfl

theorem reRegister_selSlot (sel : Sel) (p : Parsed) (h : Nat) (e : Entry) :
    selSlot sel (reRegister p h e) = selSlot sel e := by
  cases sel <;> rfl

theorem entryAll_selSlot (s : Sel) (e : Entry) :
    selSlot s (entryAll e) = e.handler := by
  cases s <;> simp [entryAll, selApply, selSlot]

theorem selBit_pos (sel : Sel) : 0 < selBit sel := by
  cases sel <;> decide

/-- The mux `applyAt` produces when the location holds bucket `b` and
entry `e`. -/
def applyAtMux (m : Mux) (pre key : Str) (f : Entry → Entry)
    (b : Bucket) (e : Entry) : Mux :=
  m.setBuckets (aset pre { b with entries := aset key (f e) b.entries } m.buckets)

theorem applyAt_found (m : Mux) (pre key : Str) (f : Entry → Entry)
    (b : Bucket) (e : Entry)
    (hb : alookup pre m.buckets = some b) (he : alookup key b.entries = some e) :
    applyAt m pre key f = applyAtMux m pre key f b e := by
  rw [applyAt]
  simp only [hb, he]
  rfl

theorem baseEntry_of_lookups (m : Mux) (p : Parsed) (b : Bucket) (e : Entry)
    (hb : alookup p.pre m.buckets = some b)
    (he : alookup p.key b.entries = some e) :
    baseEntry m p = e := by
  rw [baseEntry]
  simp only [hb, he]

/-- The mux state between the selector call and the re-registration:
first `Handle`, then the selector mutation at the entry's location. -/
def midMux (m : Mux) (p : Parsed) (h1 : Nat) (f : Entry → Entry) : Mux :=
  applyAtMux (afterHandle m p h1) p.pre p.key f (bucketAfter m p h1)
    (reRegister p h1 (baseEntry m p))

theorem applyAt_after_handle (m : Mux) (p : Parsed) (h1 : Nat)
    (f : Entry → Entry) :
    applyAt (afterHandle m p h1) p.pre p.key f = midMux m p h1 f :=
  applyAt_found _ p.pre p.key f _ _ (afterHandle_lookup_pre m p h1)
    (bucketAfter_lookup m p h1)

theorem midMux_groupPre (m : Mux) (p : Parsed) (h1 : Nat) (f : Entry → Entry) :
    (midMux m p h1 f).groupPre = m.groupPre := by
  rw [midMux, applyAtMux, setBuckets_groupPre, afterHandle_groupPre]

theorem midMux_middlewares (m : Mux) (p : Parsed) (h1 : Nat) (f : Entry → Entry) :
    (midMux m p h1 f).middlewares = m.middlewares := by
  rw [midMux, applyAtMux, setBuckets_middlewares, afterHandle_middlewares]

theorem baseEntry_midMux (m : Mux) (p : Parsed) (h1 : Nat) (f : Entry → Entry) :
    baseEntry (midMux m p h1 f) p = f (reRegister p h1 (baseEntry m p)) := by
  apply baseEntry_of_lookups _ p
    { bucketAfter m p h1 with
      entries := aset p.key (f (reRegister p h1 (baseEntry m p)))
        (bucketAfter m p h1).entries }
    (f (reRegister p h1 (baseEntry m p)))
  · rw [midMux, applyAtMux, setBuckets_buckets]
    exact alookup_aset_self _ _ _
  · exact alookup_aset_self _ _ _

/-- C10.  A method-selector call copies the entry's *current* primary
handler into that method's dedicated slot; re-registering the same
pattern afterwards replaces only the primary handler and leaves every
per-method slot (and the method mask) unchanged, so the selector's
method keeps being served by the handler that was current when the
selector was applied.  The same holds for `All`, which fills all nine
slots. -/
theorem claim10_selector_keeps_old_handler (m : Mux) (pat : Str)
    (h1 h2 : Nat) (p : Parsed) (sel : Sel)
    (hp : parseParams (m.groupPre ++ replace pat) = .ok p) :
    ∃ m1 m2 : Mux,
      handleOp m pat h1 = .ok (m1, p.pre, p.key) ∧
      handleOp (applyAt m1 p.pre p.key (selApply sel)) pat h2 =
        .ok (m2, p.pre, p.key) ∧
      (∃ b2 e2, alookup p.pre m2.buckets = some b2 ∧
        alookup p.key b2.entries = some e2 ∧
        selSlot sel e2 = some h1 ∧
        e2.handler = some h2 ∧
        serveEntryT m2.middlewares e2 (selStr sel) =
          m2.middlewares.map Ev.mw ++ [Ev.handler h1]) ∧
      (∃ m2A b2A e2A,
        handleOp (applyAt m1 p.pre p.key entryAll) pat h2 =
          .ok (m2A, p.pre, p.key) ∧
        alookup p.pre m2A.buckets = some b2A ∧
        alookup p.key b2A.entries = some e2A ∧
        (∀ s : Sel, selSlot s e2A = some h1) ∧
        e2A.handler = some h2) := by
  have hpS : ∀ f, parseParams ((midMux m p h1 f).groupPre ++ replace pat) = .ok p := by
    intro f
    rw [midMux_groupPre]
    exact hp
  refine ⟨afterHandle m p h1, afterHandle (midMux m p h1 (selApply sel)) p h2,
    handleOp_eq2 m pat h1 p hp, ?_, ?_, ?_⟩
  · rw [applyAt_after_handle]
    exact handleOp_eq2 _ pat h2 p (hpS _)
  · -- sel route: the final entry keeps h1 in the selector's slot
    refine ⟨bucketAfter (midMux m p h1 (selApply sel)) p h2,
      reRegister p h2 (selApply sel (reRegister p h1 (baseEntry m p))),
      afterHandle_lookup_pre _ p h2, ?_, ?_, rfl, ?_⟩
    · rw [bucketAfter_lookup, baseEntry_midMux]
    · rw [reRegister_selSlot, selApply_selSlot, reRegister_handler]
    · rw [serveEntryT_sel _ _ sel
        (by
          rw [reRegister_method]
          exact selApply_method_ne_zero _ sel)
        (by
          rw [reRegister_method, selApply_method, land_lor_self]
          exact selBit_pos sel)]
      rw [reRegister_selSlot, selApply_selSlot, reRegister_handler]
      rw [afterHandle_middlewares, midMux_middlewares]
      rfl
  · -- All route: every slot keeps h1
    refine ⟨afterHandle (midMux m p h1 entryAll) p h2,
      bucketAfter (midMux m p h1 entryAll) p h2,
      reRegister p h2 (entryAll (reRegister p h1 (baseEntry m p))), ?_,
      afterHandle_lookup_pre _ p h2, ?_, ?_, rfl⟩
    · rw [applyAt_after_handle]
      exact handleOp_eq2 _ pat h2 p (hpS _)
    · rw [bucketAfter_lookup, baseEntry_midMux]
    · intro s
      rw [reRegister_selSlot, entryAll_selSlot, reRegister_handler]

/-- Witness for C10: register `/hello` with handler 1, apply `GET`,
re-register with handler 2: GET is still served by handler 1 while the
primary handler is 2. -/
theorem claim10_selector_keeps_old_handler_witness :
    ∃ m1 m2 : Mux,
      handleOp emptyMux "/hello".toList 1 = .ok (m1, "/hello".toList, []) ∧
      handleOp (applyAt m1 "/hello".toList [] (selApply .sGET)) "/hello".toList 2 =
        .ok (m2, "/hello".toList, []) ∧
      (∃ b2 e2, alookup "/hello".toList m2.buckets = some b2 ∧
        alookup [] b2.entries = some e2 ∧
        selSlot .sGET e2 = some 1 ∧
        e2.handler = some 2 ∧
        serveEntryT m2.middlewares e2 (selStr .sGET) =
          m2.middlewares.map Ev.mw ++ [Ev.handler 1]) ∧
      (∃ m2A b2A e2A,
        handleOp (applyAt m1 "/hello".toList [] entryAll) "/hello".toList 2 =
          .ok (m2A, "/hello".toList, []) ∧
        alookup "/hello".toList m2A.buckets = some b2A ∧
        alookup [] b2A.entries = some e2A ∧
        (∀ s : Sel, selSlot s e2A = some 1) ∧
        e2A.handler = some 2) :=
  claim10_selector_keeps_old_handler emptyMux "/hello".toList 1 2
    ⟨"/hello".toList, [], [], []⟩ .sGET rfl

/-! ## Claim C3: empty parameter names -/

instance {ε α : Type} [DecidableEq ε] [DecidableEq α] :
    DecidableEq (Except ε α) := fun a b =>
  match a, b with
  | .error e1, .error e2 =>
    if h : e1 = e2 then .isTrue (by rw [h]) else .isFalse (by simpa using h)
  | .ok v1, .ok v2 =>
    if h : v1 = v2 then .isTrue (by rw [h]) else .isFalse (by simpa using h)
  | .error _, .ok _ => .isFalse (by simp)
  | .ok _, .error _ => .isFalse (by simp)

/-- C3 is a code bug.  `parseParams` rejects a pattern whose *first*
marker is the final character (`"/:"`) and any marker immediately
followed by a separator (`"/:/x"`), but it accepts `"/a/:x/:"`: the
trailing parameter segment `":"` has an empty name, yet registration
succeeds — the entry is stored with the empty name in its parameter
template, contradicting the documented contract of `ErrParamsKeyEmpty`
("the error returned by HandleFunc when the params key is empty"). -/
theorem claim3_trailing_empty_param_accepted :
    parseParams "/:".toList = .error .paramsKeyEmpty ∧
    parseParams "/:/x".toList = .error .paramsKeyEmpty ∧
    parseParams "/a/:x/:".toList =
      .ok ⟨"/a/".toList, ":/:".toList, ["x".toList, []], ["x".toList, []]⟩ ∧
    (∃ m1 : Mux, handleOp emptyMux "/a/:x/:".toList 7 =
      .ok (m1, "/a/".toList, ":/:".toList)) := by
  refine ⟨rfl, rfl, rfl, ⟨_, rfl⟩⟩

/-! ## Claim C6: separator collapsing and dispatch -/

/-- Replace the path named by the built-in 404 event (which quotes the
request's original, un-normalized URL). -/
def retagEv (p : Str) : Ev → Ev
  | .default404 _ => .default404 p
  | e => e

def retag404 (p : Str) (evs : List Ev) : List Ev := evs.map (retagEv p)

theorem retag404_serveHandlerT (p : Str) (mws : List Nat) (h : Option Nat) :
    retag404 p (serveHandlerT mws h) = serveHandlerT mws h := by
  simp only [serveHandlerT, retag404, List.map_append, List.map_map]
  have hcomp : retagEv p ∘ Ev.mw = Ev.mw := funext (fun x => rfl)
  rw [hcomp]
  cases h <;> rfl

set_option maxHeartbeats 1000000 in
theorem retag404_serveEntryT (p : Str) (mws : List Nat) (e : Entry) (mstr : Str) :
    retag404 p (serveEntryT mws e mstr) = serveEntryT mws e mstr := by
  rw [serveEntryT]
  split_ifs <;> first | exact retag404_serveHandlerT p mws _ | rfl

/-- C6 amended.  Dispatch of a path and dispatch of the same path with
every separator run collapsed resolve to the same entry and produce the
same middleware/handler/not-found events; the single exception is the
built-in 404 response, whose body quotes the original un-collapsed URL. -/
theorem claim6_collapse_dispatch_amended (m : Mux) (path mstr : Str) :
    serveHTTP m path mstr = retag404 path (serveHTTP m (collapse path) mstr) := by
  rw [serveHTTP, serveHTTP, replace_eq_collapse, replace_collapse]
  rcases hs : searchEntry (collapse path) m with _ | e
  · rcases hn : m.nf with _ | x <;> simp [hn, retag404, retagEv]
  · simp only []
    exact (retag404_serveEntryT path m.middlewares e mstr).symm

/-- C6 counterexample.  With `/hello` registered, dispatching the
unmatched path `//x` is *not* identical to dispatching `/x`: the built-in
404 bodies quote different URLs, so collapsing is not transparent to
dispatch in the strict sense the claim states. -/
theorem claim6_counterexample :
    ∃ m1 : Mux,
      handleOp emptyMux "/hello".toList 3 = .ok (m1, "/hello".toList, []) ∧
      serveHTTP m1 "//x".toList "GET".toList ≠
        serveHTTP m1 "/x".toList "GET".toList ∧
      "/x".toList = collapse "//x".toList := by
  refine ⟨_, rfl, ?_, ?_⟩
  · decide
  · decide

/-! ## Claim C2: middleware and groups -/

theorem setGroups_groups (m : Mux) (gs : List (Str × Mux)) :
    (m.setGroups gs).groups = gs := by
  cases m
  rfl

theorem setMiddlewares_middlewares (m : Mux) (mw : List Nat) :
    (m.setMiddlewares mw).middlewares = mw := by
  cases m
  rfl

/-- A successful `Group` call registers the group mux with a snapshot of
the parent's middleware taken at registration time. -/
theorem groupOp_ok (m : Mux) (g : Str) (acts : List (Str × Nat)) (m2 : Mux)
    (h : groupOp m g acts = .ok m2) :
    ∃ gm, alookup (replace g) m2.groups = some gm ∧
      gm.middlewares = m.middlewares := by
  rw [groupOp] at h
  rcases hrs : runSetup (newGroup (replace g)) acts with err | gm0
  · rw [hrs] at h
    exact absurd h (by simp)
  · rw [hrs] at h
    rcases hlk : alookup (replace g) m.groups with _ | old
    · rw [hlk] at h
      have hm2 := Except.ok.inj h
      refine ⟨gm0.setMiddlewares m.middlewares, ?_, setMiddlewares_middlewares gm0 _⟩
      rw [← hm2, setGroups_groups]
      exact alookup_aset_self _ _ _
    · rw [hlk] at h
      exact absurd h (by simp)

/-- C2 amended.  A Group does store a snapshot of its parent's
middleware sequence at creation time, but the snapshot is not what
dispatch uses: every request is dispatched through the parent's
`ServeHTTP`, which runs the *parent's current* middleware sequence
before the matched handler — also when the matched entry lies inside a
group, and including middleware appended to the parent after the group
was created. -/
theorem claim2_amended_root_middleware (m : Mux) (g : Str)
    (acts : List (Str × Nat)) (m2 : Mux) (rawPath mstr : Str) (e : Entry)
    (hg : groupOp m g acts = .ok m2)
    (hfound : searchEntry (replace rawPath) m2 = some e) :
    (∃ gm, alookup (replace g) m2.groups = some gm ∧
      gm.middlewares = m.middlewares) ∧
    serveHTTP m2 rawPath mstr = serveEntryT m2.middlewares e mstr := by
  refine ⟨groupOp_ok m g acts m2 hg, ?_⟩
  rw [serveHTTP]
  simp only [hfound]

/-- Witness for the amended C2. -/
theorem claim2_amended_root_middleware_witness :
    ∃ m2 : Mux, ∃ e : Entry,
      groupOp emptyMux "/g".toList [("/x".toList, 5)] = .ok m2 ∧
      searchEntry (replace "/g/x".toList) m2 = some e ∧
      serveHTTP m2 "/g/x".toList "GET".toList =
        serveEntryT m2.middlewares e "GET".toList := by
  refine ⟨_, _, rfl, rfl, ?_⟩
  exact (claim2_amended_root_middleware emptyMux "/g".toList
    [("/x".toList, 5)] _ "/g/x".toList "GET".toList _ rfl rfl).2

/-- C2 counterexample.  Parent mux with middleware 0; a group `/g` with
route `/x`; middleware 1 appended to the parent *after* the group was
created.  Dispatching `/g/x` — a request to the group's route — runs
middleware 1, which the claim asserts is never applied. -/
theorem claim2_counterexample :
    ∃ m1 : Mux,
      groupOp (useOp emptyMux 0) "/g".toList [("/x".toList, 5)] = .ok m1 ∧
      serveHTTP (useOp m1 1) "/g/x".toList "GET".toList =
        [Ev.mw 0, Ev.mw 1, Ev.handler 5] := by
  refine ⟨_, rfl, ?_⟩
  decide

/-! ## Claim C7: duplicate groups and group isolation -/

theorem mem_collapse (c : Char) (s : Str) (h : c ∈ collapse s) : c ∈ s := by
  induction s using twoStep with
  | h1 => simp [collapse] at h
  | h2 x => simpa [collapse] using h
  | h3 x y rest ih1 ih2 =>
    by_cases hp : x = '/' ∧ y = '/'
    · rw [collapse, if_pos (by simp [hp.1, hp.2])] at h
      exact List.mem_cons_of_mem x (ih1 h)
    · rw [collapse, if_neg (by simpa using hp)] at h
      rcases List.mem_cons.mp h with rfl | h2
      · exact List.mem_cons_self c _
      · exact List.mem_cons_of_mem x (ih1 h2)

theorem mem_replace (c : Char) (s : Str) (h : c ∈ replace s) : c ∈ s := by
  rw [replace_eq_collapse] at h
  exact mem_collapse c s h

theorem takeWhile_append_all (p : Char → Bool) (l1 l2 : Str)
    (h : ∀ c ∈ l1, p c = true) :
    (l1 ++ l2).takeWhile p = l1 ++ l2.takeWhile p := by
  induction l1 with
  | nil => rfl
  | cons a l1 ih =>
    rw [List.cons_append, List.takeWhile_cons, h a (List.mem_cons_self a l1),
      if_pos rfl, ih (fun c hc => h c (List.mem_cons_of_mem a hc)), List.cons_append]

/-- A successful parse of `group ++ pattern` yields a literal prefix
that extends the (marker-free) group prefix. -/
theorem parse_pre_prefix (g q : Str) (p : Parsed) (hg : ':' ∉ g)
    (hp : parseParams (g ++ q) = .ok p) : g <+: p.pre := by
  rw [parseParams] at hp
  by_cases hc : (g ++ q).contains ':'
  · rw [if_pos hc] at hp
    by_cases h2 : ((g ++ q).dropWhile (fun c => c != ':')).length = 1 ||
        containsPair ':' '/' (g ++ q)
    · rw [if_pos h2] at hp
      exact absurd hp (by simp)
    · rw [if_neg h2] at hp
      have hpre := congrArg Parsed.pre (Except.ok.inj hp)
      rw [← hpre]
      have hall : ∀ c ∈ g, (c != ':') = true := by
        intro c hcg
        have : c ≠ ':' := fun hh => hg (hh ▸ hcg)
        simpa using this
      rw [takeWhile_append_all _ g q hall]
      exact ⟨q.takeWhile (fun c => c != ':'), rfl⟩
  · rw [if_neg hc] at hp
    have hpre := congrArg Parsed.pre (Except.ok.inj hp)
    rw [← hpre]
    exact ⟨q, rfl⟩

theorem mem_aset {α : Type} (k : Str) (v : α) (l : List (Str × α))
    (kb : Str × α) (h : kb ∈ aset k v l) : kb = (k, v) ∨ kb ∈ l := by
  induction l with
  | nil => simpa [aset] using h
  | cons kw rest ih =>
    obtain ⟨k2, w⟩ := kw
    by_cases h2 : k2 = k
    · rw [aset, if_pos h2] at h
      rcases List.mem_cons.mp h with rfl | hmem
      · exact Or.inl rfl
      · exact Or.inr (List.mem_cons_of_mem _ hmem)
    · rw [aset, if_neg h2] at h
      rcases List.mem_cons.mp h with rfl | hmem
      · exact Or.inr (List.mem_cons_self _ _)
      · rcases ih hmem with hl | hr
        · exact Or.inl hl
        · exact Or.inr (List.mem_cons_of_mem _ hr)

theorem alookup_mem {α : Type} (k : Str) (l : List (Str × α)) (v : α)
    (h : alookup k l = some v) : (k, v) ∈ l := by
  induction l with
  | nil => simp [alookup] at h
  | cons kw rest ih =>
    obtain ⟨k2, w⟩ := kw
    by_cases h2 : k2 = k
    · rw [alookup, if_pos h2] at h
      rw [h2, Option.some.inj h]
      exact List.mem_cons_self _ _
    · rw [alookup, if_neg h2] at h
      exact List.mem_cons_of_mem _ (ih h)

/-- Every bucket of the mux has the group prefix as a prefix of its
literal prefix. -/
def PreInv (g : Str) (m : Mux) : Prop := ∀ kb ∈ m.buckets, g <+: kb.2.pre

theorem preInv_afterHandle (g : Str) (m : Mux) (p : Parsed) (h : Nat)
    (hgp : g <+: p.pre) (hinv : PreInv g m) : PreInv g (afterHandle m p h) := by
  intro kb hkb
  rw [afterHandle, setBuckets_buckets] at hkb
  rcases mem_aset _ _ _ _ hkb with rfl | hmem
  · rw [bucketAfter]
    rcases halo : alookup p.pre m.buckets with _ | b
    · exact hgp
    · exact hinv (p.pre, b) (alookup_mem _ _ _ halo)
  · exact hinv kb hmem

theorem handleOp_ok_cases (m : Mux) (pat : Str) (h : Nat)
    (r : Mux × Str × Str) (hr : handleOp m pat h = .ok r) :
    ∃ p, parseParams (m.groupPre ++ replace pat) = .ok p ∧
      r = (afterHandle m p h, p.pre, p.key) := by
  rw [handleOp] at hr
  rcases hp : parseParams (m.groupPre ++ replace pat) with err | p
  · simp only [hp] at hr
    exact absurd hr (by simp)
  · simp only [hp] at hr
    refine ⟨p, rfl, ?_⟩
    rcases halo : alookup p.pre m.buckets with _ | b <;>
      simp only [halo] at hr <;>
      · rw [← Except.ok.inj hr]
        simp only [afterHandle, bucketAfter, halo]

theorem runSetup_inv (g2 : Str) (hg : ':' ∉ g2) :
    ∀ (acts : List (Str × Nat)) (mux mux2 : Mux),
      runSetup mux acts = .ok mux2 → mux.groupPre = g2 → PreInv g2 mux →
      mux2.groupPre = g2 ∧ PreInv g2 mux2 := by
  intro acts
  induction acts with
  | nil =>
    intro mux mux2 hrs hgp hinv
    rw [runSetup] at hrs
    have := Except.ok.inj hrs
    rw [← this]
    exact ⟨hgp, hinv⟩
  | cons act rest ih =>
    intro mux mux2 hrs hgp hinv
    obtain ⟨pat, h⟩ := act
    rw [runSetup] at hrs
    rcases hh : handleOp mux pat h with err | r
    · rw [hh] at hrs
      exact absurd hrs (by simp)
    · rw [hh] at hrs
      obtain ⟨p, hp, hr⟩ := handleOp_ok_cases mux pat h r hh
      rw [hgp] at hp
      have hgpre : g2 <+: p.pre := parse_pre_prefix g2 (replace pat) p hg hp
      have h1 : (afterHandle mux p h).groupPre = g2 := by
        rw [afterHandle_groupPre, hgp]
      have h2 : PreInv g2 (afterHandle mux p h) :=
        preInv_afterHandle g2 mux p h hgpre hinv
      rw [hr] at hrs
      exact ih (afterHandle mux p h) mux2 hrs h1 h2

theorem matchParams_prefix (path : Str) :
    ∀ (bl : List (Str × Bucket)) (pre key : Str),
      matchParams path bl = some (pre, key) →
      ∃ kb ∈ bl, kb.2.pre = pre ∧ kb.2.pre <+: path := by
  intro bl
  induction bl with
  | nil =>
    intro pre key h
    simp [matchParams] at h
  | cons kb0 rest ih =>
    intro pre key h
    obtain ⟨k0, b0⟩ := kb0
    rw [matchParams] at h
    by_cases hpre : b0.pre.isPrefixOf path
    · rw [if_pos hpre] at h
      have hb0 : b0.pre <+: path := List.isPrefixOf_iff_prefix.mp hpre
      by_cases hr : path.drop b0.pre.length = []
      · rw [if_pos hr] at h
        have h4 := Option.some.inj h
        refine ⟨(k0, b0), List.mem_cons_self _ _, ?_, hb0⟩
        exact congrArg Prod.fst h4
      · rw [if_neg hr] at h
        rcases hscan : scanEntries (path.drop b0.pre.length) b0.entries with _ | key2
        · rw [hscan] at h
          obtain ⟨kb, hmem, hkb1, hkb2⟩ := ih pre key h
          exact ⟨kb, List.mem_cons_of_mem _ hmem, hkb1, hkb2⟩
        · rw [hscan] at h
          have := Option.some.inj h
          refine ⟨(k0, b0), List.mem_cons_self _ _, ?_, hb0⟩
          exact congrArg Prod.fst this
    · rw [if_neg hpre] at h
      obtain ⟨kb, hmem, hkb1, hkb2⟩ := ih pre key h
      exact ⟨kb, List.mem_cons_of_mem _ hmem, hkb1, hkb2⟩

theorem setMiddlewares_buckets (m : Mux) (mw : List Nat) :
    (m.setMiddlewares mw).buckets = m.buckets := by
  cases m
  rfl

/-- C7.  Defining a group under a prefix that already has a group fails
with the group-existed error (the existing registration, and hence the
first group's routes, are untouched — `groupOp` errors before any
mutation of the parent); and every route defined inside a group is only
reachable through that group's dispatcher via paths that begin with the
group's (literal, marker-free) prefix. -/
theorem claim7_group_isolation (m : Mux) (g : Str)
    (acts1 acts2 : List (Str × Nat)) (m1 gm2 : Mux)
    (hg : ':' ∉ g)
    (h1 : groupOp m g acts1 = .ok m1)
    (h2 : runSetup (newGroup (replace g)) acts2 = .ok gm2) :
    groupOp m1 g acts2 = .error .groupExisted ∧
    ∃ gm, alookup (replace g) m1.groups = some gm ∧
      ∀ path e, getHandlerFunc gm path = some e → replace g <+: path := by
  have hg2 : ':' ∉ replace g := fun hmem => hg (mem_replace ':' g hmem)
  rw [groupOp] at h1
  rcases hrs1 : runSetup (newGroup (replace g)) acts1 with err | gm1
  · rw [hrs1] at h1
    exact absurd h1 (by simp)
  rw [hrs1] at h1
  rcases hlk : alookup (replace g) m.groups with _ | old
  swap
  · rw [hlk] at h1
    exact absurd h1 (by simp)
  rw [hlk] at h1
  have hm1 := Except.ok.inj h1
  have hm1groups : alookup (replace g) m1.groups =
      some (gm1.setMiddlewares m.middlewares) := by
    rw [← hm1, setGroups_groups]
    exact alookup_aset_self _ _ _
  constructor
  · rw [groupOp, h2, hm1groups]
  · refine ⟨gm1.setMiddlewares m.middlewares, hm1groups, ?_⟩
    intro path e hfound
    have hinv : PreInv (replace g) gm1 :=
      (runSetup_inv (replace g) hg2 acts1 (newGroup (replace g)) gm1 hrs1 rfl
        (fun kb hkb => by simp [newGroup, Mux.buckets] at hkb)).2
    rw [getHandlerFunc] at hfound
    rcases hmp : matchParams path (gm1.setMiddlewares m.middlewares).buckets
      with _ | pk
    · rw [hmp] at hfound
      exact absurd hfound (by simp)
    · obtain ⟨pre, key⟩ := pk
      rw [setMiddlewares_buckets] at hmp
      obtain ⟨kb, hmem, hkb1, hkb2⟩ := matchParams_prefix path gm1.buckets pre key hmp
      exact (hinv kb hmem).trans hkb2

/-- Witness for C7: group `/g` with route `/x` registered once; a second
group at `/g` fails; the group's route is only reachable under `/g`. -/
theorem claim7_group_isolation_witness :
    ∃ m1 : Mux,
      groupOp emptyMux "/g".toList [("/x".toList, 5)] = .ok m1 ∧
      groupOp m1 "/g".toList [] = .error .groupExisted ∧
      ∃ gm, alookup "/g".toList m1.groups = some gm ∧
        ∀ path e, getHandlerFunc gm path = some e → "/g".toList <+: path := by
  refine ⟨_, rfl, ?_⟩
  have hcl : replace "/g".toList = "/g".toList := by decide
  have h := claim7_group_isolation emptyMux "/g".toList [("/x".toList, 5)] []
    _ (newGroup "/g".toList) (by decide) rfl (by simp only [hcl]; rfl)
  rw [hcl] at h
  exact h

/-! ## Claim C1: parameter routing and extraction

A registered pattern with parameters is described by a literal prefix
`pre` (everything before the first marker) and a list of segments, each
either a literal or a named parameter; a request path matching the
pattern's shape substitutes each parameter's runtime value for its
segment.  `patternOf`/`pathOf` build the pattern and such a path. -/

/-- One separator-delimited segment of the parameterized remainder of a
pattern, paired (for parameters) with the runtime value the matching
request path carries in that position. -/
inductive PSeg where
  | lit (s : Str)
  | par (name value : Str)
deriving DecidableEq, Repr

/-- The segment's text in the registered pattern. -/
def psegText : PSeg → Str
  | .lit s => s
  | .par n _ => ':' :: n

/-- The segment's text in the request path. -/
def psegPath : PSeg → Str
  | .lit s => s
  | .par _ v => v

def patternOf (pre : Str) (items : List PSeg) : Str :=
  pre ++ joinSep '/' (items.map psegText)

def pathOf (pre : Str) (items : List PSeg) : Str :=
  pre ++ joinSep '/' (items.map psegPath)

/-- The expected parameter mapping: each parameter name with the path
segment in the corresponding position, in segment order. -/
def paramPairs : List PSeg → List (Str × Str)
  | [] => []
  | .lit _ :: rest => paramPairs rest
  | .par n v :: rest => (n, v) :: paramPairs rest

/-- Well-formed segment descriptions: literals are nonempty and free of
both separators and markers; parameter names are nonempty, separator-
and marker-free; parameter values are nonempty and separator-free. -/
def WfSegs (items : List PSeg) : Prop :=
  (∀ s, PSeg.lit s ∈ items → s ≠ [] ∧ ':' ∉ s ∧ '/' ∉ s) ∧
  (∀ n v, PSeg.par n v ∈ items → n ≠ [] ∧ ':' ∉ n ∧ '/' ∉ n ∧ v ≠ [] ∧ '/' ∉ v)

theorem contains_true (c : Char) (l : Str) (h : c ∈ l) : l.contains c = true := by
  simpa using h

theorem contains_false (c : Char) (l : Str) (h : c ∉ l) : l.contains c = false := by
  simpa using h

theorem dropWhile_colon_of_not_mem (l : Str) (h : ':' ∉ l) :
    l.dropWhile (fun c => c = ':') = l := by
  cases l with
  | nil => rfl
  | cons x xs =>
    rw [List.dropWhile_cons]
    rw [if_neg]
    simp only [decide_eq_true_eq]
    intro hx
    exact h (hx ▸ List.mem_cons_self x xs)

theorem trimColon_colon_cons (n : Str) (h : ':' ∉ n) :
    trimColon (':' :: n) = n := by
  rw [trimColon]
  have h1 : (':' :: n).dropWhile (fun c => c = ':') = n.dropWhile (fun c => c = ':') := by
    rw [List.dropWhile_cons, if_pos (by simp)]
  rw [h1, dropWhile_colon_of_not_mem n h,
    dropWhile_colon_of_not_mem n.reverse (fun hm => h (List.mem_reverse.mp hm)),
    List.reverse_reverse]

theorem mem_of_getLast?_eq (l : Str) (x : Char) (h : l.getLast? = some x) :
    x ∈ l := by
  have hx : x ∈ l.getLast? := by
    rw [h]
    rfl
  rcases List.mem_getLast?_eq_getLast hx with ⟨hne, heq⟩
  rw [heq]
  exact List.getLast_mem hne

/-- `containsPair` over an append decomposes into the pieces and the
boundary pair. -/
theorem containsPair_append (a b : Char) (l1 l2 : Str) :
    containsPair a b (l1 ++ l2) =
      (containsPair a b l1 || containsPair a b l2 ||
        (match l1.getLast?, l2.head? with
         | some x, some y => x = a && y = b
         | _, _ => false)) := by
  induction l1 using twoStep with
  | h1 => simp [containsPair]
  | h2 x =>
    cases l2 with
    | nil => simp [containsPair]
    | cons y l2 =>
      simp only [List.singleton_append, containsPair, List.getLast?_singleton,
        List.head?_cons]
      cases hxy : (x = a && y = b) <;> simp [hxy, containsPair]
  | h3 x y rest ih1 ih2 =>
    rw [List.cons_append, List.cons_append, containsPair]
    rw [← List.cons_append, ih1]
    rw [containsPair, List.getLast?_cons_cons]
    cases hxy : (x = a && y = b) <;> simp [hxy, Bool.or_assoc]

theorem containsPair_of_not_mem_left (a b : Char) (l : Str) (h : a ∉ l) :
    containsPair a b l = false := by
  induction l using twoStep with
  | h1 => rfl
  | h2 x => rfl
  | h3 x y rest ih1 ih2 =>
    rw [containsPair]
    have hx : x ≠ a := fun hh => h (hh ▸ List.mem_cons_self x (y :: rest))
    have h2 : a ∉ y :: rest := fun hh => h (List.mem_cons_of_mem x hh)
    rw [ih1 h2]
    simp [hx]

theorem head?_joinSep (c : Char) (t : Str) (rest : List Str) (h : t ≠ []) :
    (joinSep c (t :: rest)).head? = t.head? := by
  cases rest with
  | nil => rfl
  | cons t2 J2 =>
    have hj : joinSep c (t :: t2 :: J2) = t ++ c :: joinSep c (t2 :: J2) := rfl
    rw [hj]
    cases t with
    | nil => exact absurd rfl h
    | cons a t2 => rfl

/-- `joinSep` of segments that avoid the boundary pairs contains no
occurrence of the two-character pattern `ab`. -/
theorem containsPair_joinSep (a b : Char) (J : List Str)
    (hJ : ∀ t ∈ J, t ≠ [] ∧ containsPair a b t = false ∧
      ¬(t.getLast? = some a ∧ b = '/') ∧ ¬(a = '/' ∧ t.head? = some b)) :
    containsPair a b (joinSep '/' J) = false := by
  induction J with
  | nil => rfl
  | cons t J ih =>
    cases J with
    | nil => exact (hJ t (List.mem_cons_self t [])).2.1
    | cons t2 J2 =>
      have hsub : ∀ u ∈ t2 :: J2, u ≠ [] ∧ containsPair a b u = false ∧
          ¬(u.getLast? = some a ∧ b = '/') ∧ ¬(a = '/' ∧ u.head? = some b) :=
        fun u hu => hJ u (List.mem_cons_of_mem t hu)
      have hrec := ih hsub
      have ht := hJ t (List.mem_cons_self t _)
      have ht2 := hsub t2 (List.mem_cons_self t2 _)
      have hhead : (joinSep '/' (t2 :: J2)).head? = t2.head? :=
        head?_joinSep '/' t2 J2 ht2.1
      have hjoin : joinSep '/' (t :: t2 :: J2) =
          t ++ '/' :: joinSep '/' (t2 :: J2) := rfl
      have hmid : containsPair a b ('/' :: joinSep '/' (t2 :: J2)) = false := by
        rcases hj : joinSep '/' (t2 :: J2) with _ | ⟨z, zs⟩
        · rfl
        · rw [hj] at hhead hrec
          rw [containsPair, hrec, Bool.or_false]
          by_cases hA : a = '/'
          · by_cases hz : z = b
            · exact absurd ⟨hA, by rw [← hhead, hz]; rfl⟩ ht2.2.2.2
            · simp [hz]
          · have hA2 : ¬('/' = a) := fun hh => hA hh.symm
            simp [hA2]
      rw [hjoin, containsPair_append, ht.2.1, hmid]
      obtain ⟨x, hx⟩ : ∃ x, t.getLast? = some x :=
        ⟨t.getLast ht.1, List.getLast?_eq_getLast_of_ne_nil ht.1⟩
      simp only [hx, List.head?_cons, Bool.false_or]
      by_cases hxa : x = a
      · by_cases hbb : b = '/'
        · exact absurd ⟨by rw [hx, hxa], hbb⟩ ht.2.2.1
        · have hbb2 : ¬('/' = b) := fun hh => hbb hh.symm
          simp [hbb2]
      · simp [hxa]

theorem splitSep_free (c : Char) (t : Str) (h : c ∉ t) : splitSep c t = [t] := by
  induction t with
  | nil => rfl
  | cons x xs ih =>
    have hx : ¬(x = c) := fun hh => h (by rw [← hh]; exact List.mem_cons_self x xs)
    rw [splitSep, if_neg hx, ih (fun hh => h (List.mem_cons_of_mem x hh))]

theorem splitSep_cons_free (c : Char) (t l : Str) (h : c ∉ t) :
    splitSep c (t ++ c :: l) = t :: splitSep c l := by
  induction t with
  | nil => rw [List.nil_append, splitSep, if_pos rfl]
  | cons x xs ih =>
    have hx : ¬(x = c) := fun hh => h (by rw [← hh]; exact List.mem_cons_self x xs)
    rw [List.cons_append, splitSep, if_neg hx,
      ih (fun hh => h (List.mem_cons_of_mem x hh))]

/-- Splitting the join recovers the segments when none contains the
separator. -/
theorem splitSep_joinSep (J : List Str) (hJ : ∀ t ∈ J, '/' ∉ t)
    (hne : J ≠ []) : splitSep '/' (joinSep '/' J) = J := by
  induction J with
  | nil => exact absurd rfl hne
  | cons t J ih =>
    cases J with
    | nil => exact splitSep_free '/' t (hJ t (List.mem_cons_self t []))
    | cons t2 J2 =>
      have hj : joinSep '/' (t :: t2 :: J2) =
          t ++ '/' :: joinSep '/' (t2 :: J2) := rfl
      rw [hj, splitSep_cons_free '/' t _ (hJ t (List.mem_cons_self t _)),
        ih (fun u hu => hJ u (List.mem_cons_of_mem t hu)) (by simp)]

theorem count_joinSep (J : List Str) (hJ : ∀ t ∈ J, '/' ∉ t) (hne : J ≠ []) :
    (joinSep '/' J).count '/' + 1 = J.length := by
  induction J with
  | nil => exact absurd rfl hne
  | cons t J ih =>
    cases J with
    | nil =>
      have : (t.count '/') = 0 :=
        List.count_eq_zero.mpr (hJ t (List.mem_cons_self t []))
      simpa [joinSep] using this
    | cons t2 J2 =>
      have hj : joinSep '/' (t :: t2 :: J2) =
          t ++ '/' :: joinSep '/' (t2 :: J2) := rfl
      have ht : (t.count '/') = 0 :=
        List.count_eq_zero.mpr (hJ t (List.mem_cons_self t _))
      have hr := ih (fun u hu => hJ u (List.mem_cons_of_mem t hu)) (by simp)
      rw [hj, List.count_append, ht, List.count_cons_self]
      simp only [List.length_cons] at hr ⊢
      omega

theorem joinSep_ne_nil (c : Char) (t : Str) (rest : List Str) (h : t ≠ []) :
    joinSep c (t :: rest) ≠ [] := by
  cases rest with
  | nil => exact h
  | cons t2 J2 =>
    have hj : joinSep c (t :: t2 :: J2) = t ++ c :: joinSep c (t2 :: J2) := rfl
    rw [hj]
    cases t with
    | nil => exact absurd rfl h
    | cons a xs => simp

theorem buildSegs_cons_lit (seg : Str) (restT : List Str) (b : Bool)
    (h : seg.contains ':' = false) :
    buildSegs (seg :: restT) b =
      (('/' :: seg) ++ (buildSegs restT false).1,
        [] :: (buildSegs restT false).2.1, (buildSegs restT false).2.2) := by
  rw [buildSegs]
  have h2 : ':' ∉ seg := by simpa using h
  simp [h2]

theorem buildSegs_cons_par (n : Str) (restT : List Str) (b : Bool)
    (hn : ':' ∉ n) :
    buildSegs ((':' :: n) :: restT) b =
      ((if b then [':'] else ['/', ':']) ++ (buildSegs restT false).1,
        n :: (buildSegs restT false).2.1, n :: (buildSegs restT false).2.2) := by
  rw [buildSegs]
  simp [contains_true ':' _ (List.mem_cons_self ':' n), trimColon_colon_cons n hn]

/-- The shape key rebuilt from the path's segments against the parsed
template equals the parsed shape key. -/
theorem rebuildKey_buildSegs (items : List PSeg)
    (hlit : ∀ s, PSeg.lit s ∈ items → s ≠ [] ∧ ':' ∉ s ∧ '/' ∉ s)
    (hpar : ∀ n v, PSeg.par n v ∈ items → n ≠ [] ∧ ':' ∉ n ∧ '/' ∉ n ∧ v ≠ [] ∧ '/' ∉ v) :
    ∀ b : Bool,
      rebuildKey (buildSegs (items.map psegText) b).2.1 (items.map psegPath) b =
        (buildSegs (items.map psegText) b).1 := by
  induction items with
  | nil =>
    intro b
    rfl
  | cons item rest ih =>
    intro b
    have ihb := ih
      (fun s hs => hlit s (List.mem_cons_of_mem item hs))
      (fun n v hnv => hpar n v (List.mem_cons_of_mem item hnv))
      false
    cases item with
    | lit s =>
      obtain ⟨hs1, hs2, hs3⟩ := hlit s (List.mem_cons_self _ _)
      rw [List.map_cons, List.map_cons,
        show psegText (PSeg.lit s) = s from rfl,
        show psegPath (PSeg.lit s) = s from rfl,
        buildSegs_cons_lit s _ b (contains_false ':' s hs2)]
      rw [rebuildKey, if_neg (by simp), ihb]
    | par n v =>
      obtain ⟨hn1, hn2, hn3, hv1, hv2⟩ := hpar n v (List.mem_cons_self _ _)
      rw [List.map_cons, List.map_cons,
        show psegText (PSeg.par n v) = ':' :: n from rfl,
        show psegPath (PSeg.par n v) = v from rfl,
        buildSegs_cons_par n _ b hn2]
      rw [rebuildKey, if_pos hn1, ihb]

theorem mem_joinSep_head (c x : Char) (t : Str) (rest : List Str)
    (h : x ∈ t) : x ∈ joinSep c (t :: rest) := by
  cases rest with
  | nil => exact h
  | cons t2 J2 =>
    have hj : joinSep c (t :: t2 :: J2) = t ++ c :: joinSep c (t2 :: J2) := rfl
    rw [hj]
    exact List.mem_append_left _ h

theorem dropWhile_append_stop (p : Char → Bool) (l1 : Str) (y : Char) (l2 : Str)
    (h1 : ∀ c ∈ l1, p c = true) (h2 : p y = false) :
    (l1 ++ y :: l2).dropWhile p = y :: l2 := by
  induction l1 with
  | nil =>
    rw [List.nil_append, List.dropWhile_cons, h2]
    rfl
  | cons a l1 ih =>
    rw [List.cons_append, List.dropWhile_cons, h1 a (List.mem_cons_self a l1)]
    exact ih (fun c hc => h1 c (List.mem_cons_of_mem a hc))

theorem containsPair_colon_cons (n : Str) (hn1 : n ≠ []) (hn2 : ':' ∉ n)
    (hn3 : '/' ∉ n) : containsPair ':' '/' (':' :: n) = false := by
  cases n with
  | nil => exact absurd rfl hn1
  | cons c n2 =>
    rw [containsPair]
    have hc : ¬(c = '/') := fun hh => hn3 (hh ▸ List.mem_cons_self c n2)
    rw [containsPair_of_not_mem_left ':' '/' (c :: n2) hn2]
    simp [hc]

theorem getLast?_colon_cons_ne (n : Str) (hn1 : n ≠ []) (hn2 : ':' ∉ n) :
    (':' :: n).getLast? ≠ some ':' := by
  cases n with
  | nil => exact absurd rfl hn1
  | cons c n2 =>
    rw [List.getLast?_cons_cons]
    intro hh
    exact hn2 (mem_of_getLast?_eq (c :: n2) ':' hh)

/-- The per-segment side conditions feeding `containsPair_joinSep` for
the pattern text of a well-formed segment list. -/
theorem patternSegs_ok (items : List PSeg)
    (hlit : ∀ s, PSeg.lit s ∈ items → s ≠ [] ∧ ':' ∉ s ∧ '/' ∉ s)
    (hpar : ∀ n v, PSeg.par n v ∈ items → n ≠ [] ∧ ':' ∉ n ∧ '/' ∉ n ∧ v ≠ [] ∧ '/' ∉ v) :
    ∀ t ∈ items.map psegText, t ≠ [] ∧ containsPair ':' '/' t = false ∧
      ¬(t.getLast? = some ':' ∧ '/' = '/') ∧ ¬(':' = '/' ∧ t.head? = some '/') := by
  intro t ht
  obtain ⟨item, hmem, hteq⟩ := List.mem_map.mp ht
  cases item with
  | lit s =>
    obtain ⟨h1, h2, h3⟩ := hlit s hmem
    rw [← hteq]
    refine ⟨h1, containsPair_of_not_mem_left ':' '/' s h2, ?_, ?_⟩
    · rintro ⟨hh, -⟩
      exact h2 (mem_of_getLast?_eq s ':' hh)
    · rintro ⟨hh, -⟩
      exact absurd hh (by decide)
  | par n v =>
    obtain ⟨h1, h2, h3, h4, h5⟩ := hpar n v hmem
    rw [← hteq]
    refine ⟨by simp [psegText], containsPair_colon_cons n h1 h2 h3, ?_, ?_⟩
    · rintro ⟨hh, -⟩
      exact getLast?_colon_cons_ne n h1 h2 hh
    · rintro ⟨hh, -⟩
      exact absurd hh (by decide)

/-- Pattern text segments are separator-free. -/
theorem patternSegs_slash_free (items : List PSeg)
    (hlit : ∀ s, PSeg.lit s ∈ items → s ≠ [] ∧ ':' ∉ s ∧ '/' ∉ s)
    (hpar : ∀ n v, PSeg.par n v ∈ items → n ≠ [] ∧ ':' ∉ n ∧ '/' ∉ n ∧ v ≠ [] ∧ '/' ∉ v) :
    ∀ t ∈ items.map psegText, '/' ∉ t := by
  intro t ht
  obtain ⟨item, hmem, hteq⟩ := List.mem_map.mp ht
  cases item with
  | lit s =>
    rw [← hteq]
    exact (hlit s hmem).2.2
  | par n v =>
    rw [← hteq]
    intro hh
    rcases List.mem_cons.mp hh with hc | hc
    · exact absurd hc (by decide)
    · exact (hpar n v hmem).2.2.1 hc

/-- `parseParams` on a well-formed parameterized pattern succeeds with
the literal prefix and the `buildSegs` results over the segment texts. -/
theorem parse_patternOf (pre : Str) (items : List PSeg)
    (n0 v0 : Str) (rest0 : List PSeg)
    (hitems : items = .par n0 v0 :: rest0)
    (hpre1 : ':' ∉ pre)
    (hlit : ∀ s, PSeg.lit s ∈ items → s ≠ [] ∧ ':' ∉ s ∧ '/' ∉ s)
    (hpar : ∀ n v, PSeg.par n v ∈ items → n ≠ [] ∧ ':' ∉ n ∧ '/' ∉ n ∧ v ≠ [] ∧ '/' ∉ v) :
    parseParams (patternOf pre items) =
      .ok ⟨pre, (buildSegs (items.map psegText) true).1,
        (buildSegs (items.map psegText) true).2.1,
        (buildSegs (items.map psegText) true).2.2⟩ := by
  obtain ⟨hn0ne, hn0c, hn0s, hv0ne, hv0s⟩ :=
    hpar n0 v0 (by rw [hitems]; exact List.mem_cons_self _ _)
  subst hitems
  -- the joined remainder starts with the marker
  obtain ⟨jr, hjr, hjrne⟩ : ∃ jr,
      joinSep '/' ((PSeg.par n0 v0 :: rest0).map psegText) = ':' :: jr ∧ jr ≠ [] := by
    rw [List.map_cons, show psegText (PSeg.par n0 v0) = ':' :: n0 from rfl]
    cases hr : rest0.map psegText with
    | nil => exact ⟨n0, rfl, hn0ne⟩
    | cons t2 J2 =>
      refine ⟨n0 ++ '/' :: joinSep '/' (t2 :: J2), rfl, ?_⟩
      cases n0 with
      | nil => exact absurd rfl hn0ne
      | cons a xs => simp
  have hcontains : (patternOf pre (PSeg.par n0 v0 :: rest0)).contains ':' = true := by
    apply contains_true
    apply List.mem_append_right
    rw [hjr]
    exact List.mem_cons_self ':' jr
  have hdrop : (patternOf pre (PSeg.par n0 v0 :: rest0)).dropWhile
      (fun c => c != ':') = ':' :: jr := by
    rw [patternOf, hjr]
    apply dropWhile_append_stop
    · intro c hc
      have : c ≠ ':' := fun hh => hpre1 (hh ▸ hc)
      simpa using this
    · simp
  have hpair : containsPair ':' '/' (patternOf pre (PSeg.par n0 v0 :: rest0)) = false := by
    rw [patternOf, containsPair_append]
    rw [containsPair_of_not_mem_left ':' '/' pre hpre1,
      containsPair_joinSep ':' '/' _ (patternSegs_ok _ hlit hpar)]
    rcases hgl : pre.getLast? with _ | x
    · rfl
    · have hx : ¬(x = ':') := fun hh => hpre1 (hh ▸ mem_of_getLast?_eq pre x hgl)
      rcases hhd : (joinSep '/' ((PSeg.par n0 v0 :: rest0).map psegText)).head?
        with _ | y
      · rfl
      · simp [hx]
  have hsplit : splitSep '/' (':' :: jr) = (PSeg.par n0 v0 :: rest0).map psegText := by
    rw [← hjr]
    exact splitSep_joinSep _ (patternSegs_slash_free _ hlit hpar) (by simp)
  rw [parseParams, if_pos hcontains, hdrop]
  rw [if_neg ?hcond]
  case hcond =>
    rw [hpair]
    simp [hjrne]
  rw [hsplit]
  have htw : (patternOf pre (PSeg.par n0 v0 :: rest0)).takeWhile
      (fun c => c != ':') = pre := by
    rw [patternOf, takeWhile_append_all _ pre _ (fun c hc => by
      have : c ≠ ':' := fun hh => hpre1 (hh ▸ hc)
      simpa using this)]
    rw [hjr, List.takeWhile_cons, if_neg (by simp), List.append_nil]
  rw [htw]

theorem mem_of_head?_eq (l : Str) (x : Char) (h : l.head? = some x) : x ∈ l := by
  cases l with
  | nil => simp at h
  | cons a xs =>
    rw [List.head?_cons] at h
    rw [← Option.some.inj h]
    exact List.mem_cons_self a xs

/-- Appending separator-free nonempty segments to a prefix free of `//`
yields a string free of `//`. -/
theorem noPair_slash_join (pre : Str) (J : List Str)
    (hpre : containsPair '/' '/' pre = false)
    (hJ : ∀ t ∈ J, t ≠ [] ∧ '/' ∉ t) (hJne : J ≠ []) :
    containsPair '/' '/' (pre ++ joinSep '/' J) = false := by
  have hJ2 : ∀ t ∈ J, t ≠ [] ∧ containsPair '/' '/' t = false ∧
      ¬(t.getLast? = some '/' ∧ '/' = '/') ∧ ¬('/' = '/' ∧ t.head? = some '/') := by
    intro t ht
    obtain ⟨h1, h2⟩ := hJ t ht
    refine ⟨h1, containsPair_of_not_mem_left '/' '/' t h2, ?_, ?_⟩
    · rintro ⟨hh, -⟩
      exact h2 (mem_of_getLast?_eq t '/' hh)
    · rintro ⟨-, hh⟩
      exact h2 (mem_of_head?_eq t '/' hh)
  rw [containsPair_append, hpre, containsPair_joinSep '/' '/' J hJ2]
  cases J with
  | nil => exact absurd rfl hJne
  | cons t0 J2 =>
    rcases hgl : pre.getLast? with _ | x
    · rfl
    · rw [head?_joinSep '/' t0 J2 (hJ t0 (List.mem_cons_self t0 J2)).1]
      rcases hhd : t0.head? with _ | y
      · rfl
      · have hy : ¬(y = '/') :=
          fun hh => (hJ t0 (List.mem_cons_self t0 J2)).2
            (hh ▸ mem_of_head?_eq t0 y hhd)
        simp [hy]

/-- Path segments of a well-formed description are nonempty and
separator-free. -/
theorem pathSegs_ok (items : List PSeg)
    (hlit : ∀ s, PSeg.lit s ∈ items → s ≠ [] ∧ ':' ∉ s ∧ '/' ∉ s)
    (hpar : ∀ n v, PSeg.par n v ∈ items → n ≠ [] ∧ ':' ∉ n ∧ '/' ∉ n ∧ v ≠ [] ∧ '/' ∉ v) :
    ∀ t ∈ items.map psegPath, t ≠ [] ∧ '/' ∉ t := by
  intro t ht
  obtain ⟨item, hmem, hteq⟩ := List.mem_map.mp ht
  cases item with
  | lit s =>
    rw [← hteq]
    exact ⟨(hlit s hmem).1, (hlit s hmem).2.2⟩
  | par n v =>
    rw [← hteq]
    exact ⟨(hpar n v hmem).2.2.2.1, (hpar n v hmem).2.2.2.2⟩

/-- Pattern segments are nonempty and separator-free as well. -/
theorem patternSegs_ok2 (items : List PSeg)
    (hlit : ∀ s, PSeg.lit s ∈ items → s ≠ [] ∧ ':' ∉ s ∧ '/' ∉ s)
    (hpar : ∀ n v, PSeg.par n v ∈ items → n ≠ [] ∧ ':' ∉ n ∧ '/' ∉ n ∧ v ≠ [] ∧ '/' ∉ v) :
    ∀ t ∈ items.map psegText, t ≠ [] ∧ '/' ∉ t := by
  intro t ht
  refine ⟨(patternSegs_ok items hlit hpar t ht).1, patternSegs_slash_free items hlit hpar t ht⟩

theorem buildSegs_msegs_length : ∀ (T : List Str) (b : Bool),
    (buildSegs T b).2.1.length = T.length
  | [], _ => rfl
  | t :: T, b => by
    rw [buildSegs]
    by_cases hc : ':' ∈ t
    · simp [hc, buildSegs_msegs_length T false]
    · simp [hc, buildSegs_msegs_length T false]

theorem aset_append_fresh {α : Type} (k : Str) (v : α) (acc : List (Str × α))
    (h : ∀ kv ∈ acc, kv.1 ≠ k) : aset k v acc = acc ++ [(k, v)] := by
  induction acc with
  | nil => rfl
  | cons kv2 rest ih =>
    rw [aset, if_neg (h kv2 (List.mem_cons_self kv2 rest)),
      ih (fun kv hkv => h kv (List.mem_cons_of_mem kv2 hkv))]
    rfl

/-- The extraction loop fills the accumulator with exactly the
name/value pairs, in segment order. -/
theorem paramsLoop_buildSegs (items : List PSeg)
    (hlit : ∀ s, PSeg.lit s ∈ items → s ≠ [] ∧ ':' ∉ s ∧ '/' ∉ s)
    (hpar : ∀ n v, PSeg.par n v ∈ items → n ≠ [] ∧ ':' ∉ n ∧ '/' ∉ n ∧ v ≠ [] ∧ '/' ∉ v)
    (hnodup : ((paramPairs items).map Prod.fst).Nodup) :
    ∀ (b : Bool) (acc : List (Str × Str)),
      (∀ kv ∈ acc, ∀ pv ∈ paramPairs items, kv.1 ≠ pv.1) →
      paramsLoop (buildSegs (items.map psegText) b).2.1 (items.map psegPath) acc =
        acc ++ paramPairs items := by
  induction items with
  | nil =>
    intro b acc hacc
    simp [paramsLoop, paramPairs]
  | cons item rest ih =>
    intro b acc hacc
    cases item with
    | lit s =>
      obtain ⟨hs1, hs2, hs3⟩ := hlit s (List.mem_cons_self _ _)
      rw [List.map_cons, List.map_cons,
        show psegText (PSeg.lit s) = s from rfl,
        show psegPath (PSeg.lit s) = s from rfl,
        buildSegs_cons_lit s _ b (contains_false ':' s hs2)]
      rw [paramsLoop, if_neg (by simp)]
      rw [ih (fun s2 hs2 => hlit s2 (List.mem_cons_of_mem _ hs2))
        (fun n v hnv => hpar n v (List.mem_cons_of_mem _ hnv))
        (by simpa [paramPairs] using hnodup) false acc
        (by simpa [paramPairs] using hacc)]
      rfl
    | par n v =>
      obtain ⟨hn1, hn2, hn3, hv1, hv2⟩ := hpar n v (List.mem_cons_self _ _)
      rw [List.map_cons, List.map_cons,
        show psegText (PSeg.par n v) = ':' :: n from rfl,
        show psegPath (PSeg.par n v) = v from rfl,
        buildSegs_cons_par n _ b hn2]
      rw [paramsLoop, if_pos hn1]
      have hpairs : paramPairs (PSeg.par n v :: rest) = (n, v) :: paramPairs rest := rfl
      rw [hpairs] at hnodup hacc
      rw [List.map_cons, List.nodup_cons] at hnodup
      have hset : aset n v acc = acc ++ [(n, v)] :=
        aset_append_fresh n v acc
          (fun kv hkv => hacc kv hkv (n, v) (List.mem_cons_self _ _))
      rw [hset]
      rw [ih (fun s2 hs2 => hlit s2 (List.mem_cons_of_mem _ hs2))
        (fun n2 v2 hnv => hpar n2 v2 (List.mem_cons_of_mem _ hnv))
        hnodup.2 false (acc ++ [(n, v)]) ?fresh]
      · rw [List.append_assoc]
        rfl
      case fresh =>
        intro kv hkv pv hpv
        rcases List.mem_append.mp hkv with hin | hin
        · exact hacc kv hin pv (List.mem_cons_of_mem _ hpv)
        · have hkv2 : kv = (n, v) := by simpa using hin
          rw [hkv2]
          intro hh
          exact hnodup.1 (hh ▸ List.mem_map_of_mem Prod.fst hpv)

/-- `matchParams` on a one-bucket, one-entry table hits the entry when
the remainder's segment count and rebuilt shape key agree with it. -/
theorem matchParams_single_hit (pre R key : Str) (e : Entry)
    (hne : R ≠ [])
    (hcount : R.count '/' + 1 = e.matchSeg.length)
    (hkey : rebuildKey e.matchSeg (splitSep '/' R) true = e.key)
    (hekey : e.key = key) :
    matchParams (pre ++ R) [(pre, ⟨pre, [(key, e)]⟩)] = some (pre, key) := by
  rw [matchParams]
  have hp : List.isPrefixOf pre (pre ++ R) = true :=
    List.isPrefixOf_iff_prefix.mpr ⟨R, rfl⟩
  rw [if_pos hp]
  have hdrop : (pre ++ R).drop pre.length = R := List.drop_left pre R
  rw [hdrop, if_neg hne, scanEntries, if_pos hcount, if_pos hkey, hekey]

/-- The parse result of a well-formed parameterized pattern. -/
def parsedOf (pre : Str) (items : List PSeg) : Parsed :=
  ⟨pre, (buildSegs (items.map psegText) true).1,
    (buildSegs (items.map psegText) true).2.1,
    (buildSegs (items.map psegText) true).2.2⟩

/-- The entry stored by registering the pattern on a fresh mux. -/
def entryOf (pre : Str) (items : List PSeg) (h : Nat) : Entry :=
  reRegister (parsedOf pre items) h {}

/-- The router after registering the pattern on a fresh mux. -/
def muxOf (pre : Str) (items : List PSeg) (h : Nat) : Mux :=
  afterHandle emptyMux (parsedOf pre items) h

theorem muxOf_eq (pre : Str) (items : List PSeg) (h : Nat) :
    muxOf pre items h =
      Mux.mk [(pre, ⟨pre, [((parsedOf pre items).key, entryOf pre items h)]⟩)]
        [] none [] [] := rfl

theorem searchEntry_eq (path : Str) (m : Mux) :
    searchEntry path m =
      match getHandlerFunc m path with
      | some e => some e
      | none => searchGroups path m.groups := by
  cases m
  rw [searchEntry]
  rfl

/-- C1.  For a router in which a well-formed pattern with parameter
segments (distinct non-empty names) is registered, dispatching a request
whose normalized path matches that pattern's shape invokes the
registered entry's handler (for any request method — no selector was
applied), and `Params` returns exactly one entry per parameter segment,
mapping each parameter name to the path segment in the corresponding
position. -/
theorem claim1_params_extraction (pre : Str) (items : List PSeg) (h : Nat)
    (n0 v0 : Str) (rest0 : List PSeg)
    (hitems : items = .par n0 v0 :: rest0)
    (hpre1 : ':' ∉ pre)
    (hpre2 : containsPair '/' '/' pre = false)
    (hlit : ∀ s, PSeg.lit s ∈ items → s ≠ [] ∧ ':' ∉ s ∧ '/' ∉ s)
    (hpar : ∀ n v, PSeg.par n v ∈ items → n ≠ [] ∧ ':' ∉ n ∧ '/' ∉ n ∧ v ≠ [] ∧ '/' ∉ v)
    (hnodup : ((paramPairs items).map Prod.fst).Nodup) :
    handleOp emptyMux (patternOf pre items) h =
      .ok (muxOf pre items h, pre, (parsedOf pre items).key) ∧
    (∀ mstr, serveHTTP (muxOf pre items h) (pathOf pre items) mstr =
      [Ev.handler h]) ∧
    paramsOf (muxOf pre items h) (pathOf pre items) = paramPairs items := by
  have hitems_ne : items ≠ [] := by
    rw [hitems]
    simp
  have htexts_ne : items.map psegText ≠ [] := by
    simpa using hitems_ne
  have hpaths_ne : items.map psegPath ≠ [] := by
    simpa using hitems_ne
  obtain ⟨hn0ne, hn0c, hn0s, hv0ne, hv0s⟩ :=
    hpar n0 v0 (by rw [hitems]; exact List.mem_cons_self _ _)
  -- neither the pattern nor the path contains "//"
  have hpat_nopair : containsPair '/' '/' (patternOf pre items) = false :=
    noPair_slash_join pre _ hpre2 (patternSegs_ok2 items hlit hpar) htexts_ne
  have hpath_nopair : containsPair '/' '/' (pathOf pre items) = false :=
    noPair_slash_join pre _ hpre2 (pathSegs_ok items hlit hpar) hpaths_ne
  have hrep_path : replace (pathOf pre items) = pathOf pre items :=
    replace_of_not_containsPair _ hpath_nopair
  -- registration
  have hparse : parseParams (emptyMux.groupPre ++ replace (patternOf pre items)) =
      .ok (parsedOf pre items) := by
    rw [show emptyMux.groupPre = [] from rfl, List.nil_append,
      replace_of_not_containsPair _ hpat_nopair]
    exact parse_patternOf pre items n0 v0 rest0 hitems hpre1 hlit hpar
  have hpath_split : pathOf pre items = pre ++ joinSep '/' (items.map psegPath) := rfl
  have hfirst : ∃ T, items.map psegPath = v0 :: T := by
    rw [hitems]
    exact ⟨rest0.map psegPath, rfl⟩
  have hRne : joinSep '/' (items.map psegPath) ≠ [] := by
    obtain ⟨T, hT⟩ := hfirst
    rw [hT]
    exact joinSep_ne_nil '/' v0 T hv0ne
  have hcount : (joinSep '/' (items.map psegPath)).count '/' + 1 =
      (entryOf pre items h).matchSeg.length := by
    have hc := count_joinSep (items.map psegPath)
      (fun t ht => (pathSegs_ok items hlit hpar t ht).2) hpaths_ne
    rw [show (entryOf pre items h).matchSeg =
      (buildSegs (items.map psegText) true).2.1 from rfl]
    rw [buildSegs_msegs_length, List.length_map, hc, List.length_map]
  have hsplit : splitSep '/' (joinSep '/' (items.map psegPath)) =
      items.map psegPath :=
    splitSep_joinSep _ (fun t ht => (pathSegs_ok items hlit hpar t ht).2) hpaths_ne
  have hkey : rebuildKey (entryOf pre items h).matchSeg
      (splitSep '/' (joinSep '/' (items.map psegPath))) true =
      (entryOf pre items h).key := by
    rw [hsplit]
    exact rebuildKey_buildSegs items hlit hpar true
  have hmatch : matchParams (pathOf pre items) (muxOf pre items h).buckets =
      some (pre, (parsedOf pre items).key) := by
    rw [muxOf_eq, show (Mux.mk [(pre, ⟨pre, [((parsedOf pre items).key,
        entryOf pre items h)]⟩)] [] none [] []).buckets =
      [(pre, ⟨pre, [((parsedOf pre items).key, entryOf pre items h)]⟩)] from rfl,
      hpath_split]
    exact matchParams_single_hit pre _ _ (entryOf pre items h) hRne hcount hkey rfl
  have halk1 : alookup pre (muxOf pre items h).buckets =
      some ⟨pre, [((parsedOf pre items).key, entryOf pre items h)]⟩ := by
    rw [muxOf_eq]
    rw [show (Mux.mk [(pre, ⟨pre, [((parsedOf pre items).key,
        entryOf pre items h)]⟩)] [] none [] []).buckets =
      [(pre, ⟨pre, [((parsedOf pre items).key, entryOf pre items h)]⟩)] from rfl]
    rw [alookup, if_pos rfl]
  have halk2 : alookup (parsedOf pre items).key
      [((parsedOf pre items).key, entryOf pre items h)] =
      some (entryOf pre items h) := by
    rw [alookup, if_pos rfl]
  have hgf : getHandlerFunc (muxOf pre items h) (pathOf pre items) =
      some (entryOf pre items h) := by
    rw [getHandlerFunc]
    simp only [hmatch, halk1, halk2]
  refine ⟨handleOp_eq2 emptyMux _ h _ hparse, ?_, ?_⟩
  · -- dispatch invokes the registered handler
    intro mstr
    rw [serveHTTP]
    simp only [hrep_path, searchEntry_eq, hgf]
    rw [show (muxOf pre items h).middlewares = [] from rfl]
    rw [serveEntryT, if_pos (show (entryOf pre items h).method = 0 from rfl)]
    rfl
  · -- parameter extraction
    rw [paramsOf]
    simp only [hrep_path, hmatch, halk1, halk2]
    have hlen1 : (entryOf pre items h).matchSeg.length > 0 := by
      rw [show (entryOf pre items h).matchSeg =
        (buildSegs (items.map psegText) true).2.1 from rfl,
        buildSegs_msegs_length, List.length_map, hitems]
      simp
    have hlen2 : (pathOf pre items).length > pre.length := by
      rw [hpath_split, List.length_append]
      have : 0 < (joinSep '/' (items.map psegPath)).length :=
        List.length_pos.mpr hRne
      omega
    rw [if_pos ⟨hlen1, hlen2⟩]
    rw [hpath_split, List.drop_left, hsplit]
    rw [if_pos (by
      rw [List.length_map, show (entryOf pre items h).matchSeg =
        (buildSegs (items.map psegText) true).2.1 from rfl,
        buildSegs_msegs_length, List.length_map])]
    rw [show (entryOf pre items h).matchSeg =
      (buildSegs (items.map psegText) true).2.1 from rfl]
    rw [paramsLoop_buildSegs items hlit hpar hnodup true [] (by simp)]
    rfl

/-- Witness for C1 at the spec's example: pattern
`/hello/:key/world/:value` and request path `/hello/123/world/456`. -/
theorem claim1_params_extraction_witness :
    handleOp emptyMux (patternOf "/hello/".toList
        [.par "key".toList "123".toList, .lit "world".toList,
          .par "value".toList "456".toList]) 9 =
      .ok (muxOf "/hello/".toList
        [.par "key".toList "123".toList, .lit "world".toList,
          .par "value".toList "456".toList] 9,
        "/hello/".toList,
        (parsedOf "/hello/".toList
          [.par "key".toList "123".toList, .lit "world".toList,
            .par "value".toList "456".toList]).key) ∧
    serveHTTP (muxOf "/hello/".toList
        [.par "key".toList "123".toList, .lit "world".toList,
          .par "value".toList "456".toList] 9)
      "/hello/123/world/456".toList "GET".toList = [Ev.handler 9] ∧
    paramsOf (muxOf "/hello/".toList
        [.par "key".toList "123".toList, .lit "world".toList,
          .par "value".toList "456".toList] 9)
      "/hello/123/world/456".toList =
      [("key".toList, "123".toList), ("value".toList, "456".toList)] := by
  have hmain := claim1_params_extraction "/hello/".toList
    [.par "key".toList "123".toList, .lit "world".toList,
      .par "value".toList "456".toList] 9
    "key".toList "123".toList
    [.lit "world".toList, .par "value".toList "456".toList] rfl
    (by decide) (by decide)
    (by
      intro s hs
      simp at hs
      subst hs
      decide)
    (by
      intro n v hnv
      simp at hnv
      rcases hnv with ⟨hn, hv⟩ | ⟨hn, hv⟩ <;> subst hn <;> subst hv <;> decide)
    (by decide)
  have hpath : pathOf "/hello/".toList
      [.par "key".toList "123".toList, .lit "world".toList,
        .par "value".toList "456".toList] = "/hello/123/world/456".toList := by
    decide
  refine ⟨hmain.1, ?_, ?_⟩
  · rw [← hpath]
    exact hmain.2.1 "GET".toList
  · rw [← hpath]
    exact hmain.2.2.trans (by decide)

end Rum
